import Mathlib

/-!
Verification development for the Genome-Automaton repository.

The four automaton engines (exact-match DFA, alternatives NFA, spacer
epsilon-NFA, complement-palindrome PDA), their shared helpers and the
factory are shallowly embedded: Python strings become `List Char`,
Python ints become `Int` (or `Nat` where the source guarantees
non-negativity), Python sets become lists read up to membership, and
fallible constructors return `Except`.  Definitions come first, then
the supporting lemmas and the claim theorems.
-/

namespace GA

/-- ASCII upper-casing, the embedding of Python's `str.upper` restricted to
the ASCII letters (identical to `Char.toUpper`, written as an explicit
table so that its fixed points are easy to reason about). -/
def up (c : Char) : Char :=
  if c = 'a' then 'A' else if c = 'b' then 'B' else if c = 'c' then 'C'
  else if c = 'd' then 'D' else if c = 'e' then 'E' else if c = 'f' then 'F'
  else if c = 'g' then 'G' else if c = 'h' then 'H' else if c = 'i' then 'I'
  else if c = 'j' then 'J' else if c = 'k' then 'K' else if c = 'l' then 'L'
  else if c = 'm' then 'M' else if c = 'n' then 'N' else if c = 'o' then 'O'
  else if c = 'p' then 'P' else if c = 'q' then 'Q' else if c = 'r' then 'R'
  else if c = 's' then 'S' else if c = 't' then 'T' else if c = 'u' then 'U'
  else if c = 'v' then 'V' else if c = 'w' then 'W' else if c = 'x' then 'X'
  else if c = 'y' then 'Y' else if c = 'z' then 'Z' else c

/-- The fixed DNA alphabet `['A','T','G','C']` shared by all engines. -/
def alphabet : List Char := ['A', 'T', 'G', 'C']

/-- `Python s[i : i+len]` for a list: drop `i`, take `len`. -/
def slice (s : List Char) (i len : Nat) : List Char :=
  (s.drop i).take len

/-! ## Exact-Match engine (`src/automata_engine.py`, class `DFA`) -/

/-- The exact-match engine: an upper-cased literal pattern plus the single
current state (an integer; state 0 is initial and accepting). -/
structure DFA where
  pattern : List Char
  current_state : Nat
deriving DecidableEq, Repr

/-- `DFA(pattern)`: upper-case the pattern and start in state 0. -/
def DFA.mk' (pattern : List Char) : DFA :=
  { pattern := pattern.map up, current_state := 0 }

/-- The caller-visible current-state set of the exact-match engine
(`DFA.get_current_states`), always the singleton of the current state. -/
def DFA.get_current_states (d : DFA) : List Nat :=
  [d.current_state]

/-- The transition dictionary built by `DFA._build_linear_chain`, as a
partial function: defined on `(i, sym)` for `i` a chain state and `sym`
an alphabet letter.  Reading the `i`-th pattern character advances (or
wraps to 0 from the last state); any other alphabet symbol restarts at
state 1 when it equals the pattern's first character and `i ≠ 0`,
otherwise falls back to state 0.  The empty pattern self-loops at 0. -/
def dfaTransFn (p : List Char) (i : Nat) (c : Char) : Option Nat :=
  if p = [] then
    (if i = 0 ∧ c ∈ alphabet then some 0 else none)
  else if i < p.length ∧ c ∈ alphabet then
    some (if c = p.getD i ' ' then
            (if i = p.length - 1 then 0 else i + 1)
          else if c = p.getD 0 ' ' ∧ i ≠ 0 then 1 else 0)
  else none

/-- `DFA.step` on the state alone: upper-case the symbol; if it is in the
alphabet, follow the transition table (default 0) and flag a match
exactly on the wrap-from-last-state transition driven by the pattern's
final character; otherwise leave the state unchanged with no match. -/
def dfaStep (p : List Char) (st : Nat) (cRaw : Char) : Nat × Bool :=
  let c := up cRaw
  if c ∈ alphabet then
    let next := (dfaTransFn p st c).getD 0
    (next, decide (st + 1 = p.length ∧ next = 0 ∧ c = p.getD (p.length - 1) ' '))
  else
    (st, false)

/-- `DFA.step` as a method on the engine record. -/
def DFA.step (d : DFA) (c : Char) : DFA × Bool :=
  let r := dfaStep d.pattern d.current_state c
  ({ d with current_state := r.1 }, r.2)

/-- `DFA.reset`. -/
def DFA.reset (d : DFA) : DFA := { d with current_state := 0 }

/-- The scanning loop of `DFA.find_all_matches`: step through the
remaining symbols from state `st` at position `i`, recording interval
`(i - |p| + 1, i)` whenever the step flags a match. -/
def dfaGo (p : List Char) : Nat → Nat → List Char → List (Int × Int)
  | _, _, [] => []
  | st, i, c :: rest =>
    let r := dfaStep p st c
    (if r.2 then [((i : Int) - p.length + 1, (i : Int))] else []) ++
      dfaGo p r.1 (i + 1) rest

/-- `DFA.find_all_matches`: reset, scan the whole sequence recording the
flagged intervals, reset again; returns the updated engine (left in its
reset configuration) together with the match list. -/
def DFA.find_all_matches (d : DFA) (s : List Char) : DFA × List (Int × Int) :=
  ({ d with current_state := 0 }, dfaGo d.pattern 0 0 s)

/-! ## Spacer engine (`src/enfa_engine.py`, class `EpsilonNFA`) -/

/-- Nondeterministic states of the spacer engine: progress in the head
motif, count within the spacer, or progress in the tail motif
(`ENFAState(phase, k)` in the source). -/
inductive ENFAState where
  | hd (k : Nat)
  | sp (k : Nat)
  | tl (k : Nat)
deriving DecidableEq, Repr

/-- Whitespace characters stripped by Python's `int`. -/
def isPyWS (c : Char) : Bool :=
  c = ' ' || c = '\t' || c = '\n' || c = '\r'

/-- Digit-string value. -/
def digitsVal : List Char → Nat :=
  fun l => l.foldl (fun a c => a * 10 + (c.toNat - 48)) 0

/-- Python's `int(str)` (modelled for strings of an optional sign and
decimal digits, surrounded by optional whitespace; `none` is a raised
`ValueError`). -/
def pyInt (l : List Char) : Option Int :=
  let t := ((l.dropWhile isPyWS).reverse.dropWhile isPyWS).reverse
  match t with
  | [] => none
  | '-' :: ds =>
      if ds ≠ [] ∧ ds.all Char.isDigit then some (-(digitsVal ds : Int)) else none
  | '+' :: ds =>
      if ds ≠ [] ∧ ds.all Char.isDigit then some (digitsVal ds : Int) else none
  | ds =>
      if ds.all Char.isDigit then some (digitsVal ds : Int) else none

/-- The left brace character, written by code so that no brace appears in
a literal. -/
def lbrace : Char := Char.ofNat 123

/-- The right brace character. -/
def rbrace : Char := Char.ofNat 125

/-- Python's `s.split(sep, 1)` restricted to the case `sep ∈ s`: the part
before the first occurrence of `sep` and the part after it. -/
def splitFirst (sep : Char) (l : List Char) : List Char × List Char :=
  (l.takeWhile (· ≠ sep), (l.dropWhile (· ≠ sep)).drop 1)

/-- The bound portion of `_parse_enfa_pattern`: split the range text on
its first comma when one is present and convert each part with `int`
(two equal bounds for the single-integer form); `none` is a raised
`ValueError` from `int`. -/
def parseBounds (rng : List Char) : Option (Int × Int) :=
  if ',' ∈ rng then
    match pyInt (splitFirst ',' rng).1, pyInt (splitFirst ',' rng).2 with
    | some a, some b => some (a, b)
    | _, _ => none
  else
    match pyInt rng with
    | some a => some (a, a)
    | none => none

/-- `_parse_enfa_pattern`: upper-case, require both braces, split the
head before the first left brace, the range before the next right
brace, the tail after it; parse one or two integer bounds; reject a
negative minimum or an inverted range.  `Except.error` stands for a
raised `ValueError`. -/
def parse_enfa_pattern (spec0 : List Char) :
    Except String (List Char × Nat × Nat × List Char) :=
  if lbrace ∈ spec0.map up ∧ rbrace ∈ spec0.map up then
    if rbrace ∈ (splitFirst lbrace (spec0.map up)).2 then
      match parseBounds (splitFirst rbrace (splitFirst lbrace (spec0.map up)).2).1 with
      | none => Except.error "invalid literal for int"
      | some (a, b) =>
          if a < 0 ∨ b < a then Except.error "Invalid spacer range"
          else Except.ok ((splitFirst lbrace (spec0.map up)).1, a.toNat, b.toNat,
            (splitFirst rbrace (splitFirst lbrace (spec0.map up)).2).2)
    else Except.error "not enough values to unpack"
  else Except.error "Epsilon-NFA expects pattern like HEAD(m,n)TAIL"

/-- The spacer engine: parsed parameters plus the nondeterministic
active-state set (a list read up to membership). -/
structure EpsilonNFA where
  head : List Char
  min_gap : Nat
  max_gap : Nat
  tail : List Char
  current_states : List ENFAState
deriving DecidableEq, Repr

/-- `EpsilonNFA(pattern)` after a successful parse: store the four
parameters and reset. -/
def EpsilonNFA.mk' (q : List Char × Nat × Nat × List Char) : EpsilonNFA :=
  { head := q.1, min_gap := q.2.1, max_gap := q.2.2.1, tail := q.2.2.2,
    current_states := [ENFAState.hd 0] }

/-- `EpsilonNFA._epsilon_closure`: the simplified closure only re-adds the
fresh-attempt state `(head, 0)`. -/
def epsilonClosure (l : List ENFAState) : List ENFAState :=
  if ENFAState.hd 0 ∈ l then l else ENFAState.hd 0 :: l

/-- The per-state transition relation inside `EpsilonNFA.step`: advance
head progress (entering the spacer when the head completes), advance
the spacer counter below `max_gap` and branch into the tail once
`min_gap` is reached, advance tail progress. -/
def enfaNexts (e : EpsilonNFA) (prev : List ENFAState) (c : Char) :
    List ENFAState :=
  prev.flatMap (fun st =>
    match st with
    | ENFAState.hd k =>
        if k < e.head.length ∧ e.head.getD k ' ' = c then
          (if k + 1 = e.head.length then [ENFAState.sp 0] else [ENFAState.hd (k + 1)])
        else []
    | ENFAState.sp g =>
        (if g < e.max_gap then [ENFAState.sp (g + 1)] else []) ++
        (if e.min_gap ≤ g ∧ 0 < e.tail.length ∧ e.tail.getD 0 ' ' = c then
          [ENFAState.tl 1] else [])
    | ENFAState.tl k =>
        if k < e.tail.length ∧ e.tail.getD k ' ' = c then
          [ENFAState.tl (k + 1)] else [])

/-- One spacer-engine step on the active-state set: close, fire the
per-state transitions, close again; accept when `(tail, len(tail))` is
active. -/
def enfaStepSet (e : EpsilonNFA) (cur : List ENFAState) (cRaw : Char) :
    List ENFAState × Bool :=
  let c := up cRaw
  let res := epsilonClosure (enfaNexts e (epsilonClosure cur) c)
  (res, decide (ENFAState.tl e.tail.length ∈ res))

/-- `EpsilonNFA.step` as a method on the engine record. -/
def EpsilonNFA.step (e : EpsilonNFA) (c : Char) : EpsilonNFA × Bool :=
  let r := enfaStepSet e e.current_states c
  ({ e with current_states := r.1 }, r.2)

/-- `EpsilonNFA.reset`. -/
def EpsilonNFA.reset (e : EpsilonNFA) : EpsilonNFA :=
  { e with current_states := [ENFAState.hd 0] }

/-- `EpsilonNFA.find_all_matches`: an independent batch scan.  For every
index `i` where the upper-cased sequence carries `head`, and every gap
`g` in `[min_gap, max_gap]` such that `tail` fits and occurs at
`i + len(head) + g`, record `(i, i + len(head) + g + len(tail) - 1)`.
The incremental simulation state is not consulted. -/
def EpsilonNFA.find_all_matches (e : EpsilonNFA) (s : List Char) :
    List (Int × Int) :=
  let su := s.map up
  let n := su.length
  (List.range (n + 1 - e.head.length)).flatMap (fun i =>
    if slice su i e.head.length = e.head then
      (List.range' e.min_gap (e.max_gap + 1 - e.min_gap)).flatMap (fun g =>
        let j := i + e.head.length + g
        if j + e.tail.length ≤ n ∧ slice su j e.tail.length = e.tail then
          [((i : Int), (j : Int) + e.tail.length - 1)]
        else [])
    else [])

/-- The method form of `EpsilonNFA.find_all_matches`: the source method
performs no assignment to any engine field, so the engine component of
the result is the receiver itself. -/
def EpsilonNFA.find_all_matchesM (e : EpsilonNFA) (s : List Char) :
    EpsilonNFA × List (Int × Int) :=
  (e, e.find_all_matches s)

/-! ## Complement-palindrome engine (`src/pda_engine.py`, class `PDA`) -/

/-- `_comp`: the complement map with `?` as the sentinel for characters
outside `{A,T,G,C}`. -/
def comp (c : Char) : Char :=
  if c = 'A' then 'T' else if c = 'T' then 'A'
  else if c = 'G' then 'C' else if c = 'C' then 'G' else '?'

/-- The complement-palindrome engine: configured minimum match length
plus the cosmetic logging state (symbol stack, position, mode label). -/
structure PDA where
  min_len : Nat
  stack : List Char
  pos : Nat
  mode : String
deriving DecidableEq, Repr

/-- `PDA(pattern, min_len)`: floor the minimum length at 2, start with an
empty stack at position 0 in push mode (the pattern is ignored). -/
def PDA.mk' (min_len : Nat) : PDA :=
  { min_len := max 2 min_len, stack := [], pos := 0, mode := "push" }

/-- `PDA.reset`. -/
def PDA.reset (p : PDA) : PDA :=
  { p with stack := [], pos := 0, mode := "push" }

/-- `PDA.step`: logging only.  Push the upper-cased symbol and advance the
position; once the stack exceeds length 8, shift out the oldest symbol
and label the mode "pop", otherwise "push".  The match flag is always
false. -/
def PDA.step (p : PDA) (cRaw : Char) : PDA × Bool :=
  let c := up cRaw
  let st1 := p.stack ++ [c]
  let p' :=
    if st1.length > 8 then
      { p with stack := st1.drop 1, pos := p.pos + 1, mode := "pop" }
    else
      { p with stack := st1, pos := p.pos + 1, mode := "push" }
  (p', false)

/-- The `expand` loop of `PDA.find_all_matches`, with the left index
carried as `lp = l + 1` so that it stays a natural number: while
`l ≥ 0`, `r < n` and `comp s[l] = s[r]`, move both pointers outward;
return the final `(lp, r)`. -/
def expandGo (s : List Char) : Nat → Nat → Nat × Nat
  | 0, r => (0, r)
  | lp + 1, r =>
      if r < s.length ∧ comp (s.getD lp ' ') = s.getD r ' ' then
        expandGo s lp (r + 1)
      else (lp + 1, r)

/-- Strict lexicographic order on interval pairs (Python tuple `<`). -/
def ltPair (x y : Nat × Nat) : Prop :=
  x.1 < y.1 ∨ (x.1 = y.1 ∧ x.2 < y.2)

instance : DecidableRel ltPair := fun x y => by
  unfold ltPair; infer_instance

/-- Insert an interval into a strictly ascending list, dropping it if
already present (building block for Python's `sorted(set(...))`). -/
def insSD (x : Nat × Nat) : List (Nat × Nat) → List (Nat × Nat)
  | [] => [x]
  | y :: ys =>
      if x = y then y :: ys
      else if ltPair x y then x :: y :: ys
      else y :: insSD x ys

/-- Python's `sorted(set(l))` on interval pairs: the distinct elements in
ascending lexicographic order. -/
def sortedDedup (l : List (Nat × Nat)) : List (Nat × Nat) :=
  l.foldr insSD []

/-- `PDA.find_all_matches` on the parameters alone: expand around every
even-length center `(i, i+1)` of the upper-cased sequence, record the
span `(l+1, r-1)` when its length reaches `min_len`, then de-duplicate
and sort. -/
def pdaSearch (min_len : Nat) (s : List Char) : List (Nat × Nat) :=
  sortedDedup ((List.range ((s.map up).length - 1)).flatMap (fun i =>
    if min_len ≤ (expandGo (s.map up) (i + 1) (i + 1)).2 -
        (expandGo (s.map up) (i + 1) (i + 1)).1 then
      [((expandGo (s.map up) (i + 1) (i + 1)).1,
        (expandGo (s.map up) (i + 1) (i + 1)).2 - 1)]
    else []))

/-- `PDA.find_all_matches` as a method: the source method reads only
`min_len` and assigns no engine field, so the engine component of the
result is the receiver itself. -/
def PDA.find_all_matchesM (p : PDA) (s : List Char) :
    PDA × List (Nat × Nat) :=
  (p, pdaSearch p.min_len s)

/-! ## Alternatives engine (`src/nfa_engine.py`, class `NFA`) -/

/-- Python's `str.split(sep)` (all occurrences, empty parts kept). -/
def splitSep (sep : Char) : List Char → List Char → List (List Char)
  | [], acc => [acc.reverse]
  | c :: rest, acc =>
      if c = sep then acc.reverse :: splitSep sep rest []
      else splitSep sep rest (c :: acc)

/-- The alternatives of a pattern: upper-case, split on `|`, drop empty
parts; an empty result normalizes to a single empty alternative. -/
def nfaAlternatives (pat : List Char) : List (List Char) :=
  let parts := (splitSep '|' (pat.map up) []).filter (fun a => a ≠ [])
  if parts = [] then [[]] else parts

/-- The mutable construction state of `NFA._build_graph`: the next fresh
state id, the prefix-to-state dictionary, the transition list and the
final-return edge list. -/
structure NFAB where
  nextId : Nat
  pmap : List (List Char × Nat)
  trans : List ((Nat × Char) × Nat)
  finals : List (Nat × Char)
deriving Repr

/-- Dictionary lookup in the prefix map. -/
def lookupP (p : List Char) (m : List (List Char × Nat)) : Option Nat :=
  (m.find? (fun e => e.1 = p)).map (fun e => e.2)

/-- The inner loop of `NFA._build_graph` over one alternative: walk the
remaining characters from state `u` (reached by `pref`); the final
character adds a return-to-0 edge marked final, every earlier character
adds an edge to the (possibly fresh) state of the extended prefix. -/
def goAlt : NFAB → Nat → List Char → List Char → NFAB
  | st, _, _, [] => st
  | st, u, _, [c] =>
      { st with trans := st.trans ++ [((u, c), 0)],
                finals := st.finals ++ [(u, c)] }
  | st, u, pref, c :: c2 :: rest =>
      let pref' := pref ++ [c]
      match lookupP pref' st.pmap with
      | some v =>
          goAlt { st with trans := st.trans ++ [((u, c), v)] } v pref' (c2 :: rest)
      | none =>
          let v := st.nextId
          goAlt { nextId := v + 1, pmap := st.pmap ++ [(pref', v)],
                  trans := st.trans ++ [((u, c), v)], finals := st.finals }
            v pref' (c2 :: rest)

/-- `NFA._build_graph`: fold the alternatives (skipping empty ones) over
the initial construction state (fresh ids from 1, prefix map holding
the empty prefix at state 0). -/
def buildNFA (alts : List (List Char)) : NFAB :=
  alts.foldl (fun st alt => if alt = [] then st else goAlt st 0 [] alt)
    { nextId := 1, pmap := [([], 0)], trans := [], finals := [] }

/-- All targets of `(u, c)` in the transition multimap. -/
def transGet (tr : List ((Nat × Char) × Nat)) (u : Nat) (c : Char) : List Nat :=
  (tr.filter (fun e => e.1 = (u, c))).map (fun e => e.2)

/-- The alternatives engine: the parsed alternatives, the built graph and
the active-state set (a list read up to membership). -/
structure NFA where
  alternatives : List (List Char)
  graph : NFAB
  current_states : List Nat

/-- `NFA(pattern)`: parse alternatives, build the graph, reset to `{0}`. -/
def NFA.mk' (pat : List Char) : NFA :=
  let alts := nfaAlternatives pat
  { alternatives := alts, graph := buildNFA alts, current_states := [0] }

/-- One alternatives-engine step on the active-state set: fire all
transitions from the active set with state 0 implicitly added; flag a
match when a fired edge is final or lands on 0 from a non-zero source;
re-seed `{0}` when no edge fires. -/
def nfaStepSet (g : NFAB) (cur : List Nat) (cRaw : Char) : List Nat × Bool :=
  let c := up cRaw
  let cand := 0 :: cur
  let nexts := cand.flatMap (fun u => transGet g.trans u c)
  let matched := cand.any (fun u =>
    (transGet g.trans u c).any (fun v =>
      decide ((u, c) ∈ g.finals) || (decide (v = 0) && decide (u ≠ 0))))
  (if nexts = [] then [0] else nexts, matched)

/-- `NFA.step` as a method on the engine record. -/
def NFA.step (m : NFA) (c : Char) : NFA × Bool :=
  let r := nfaStepSet m.graph m.current_states c
  ({ m with current_states := r.1 }, r.2)

/-- `NFA.reset`. -/
def NFA.reset (m : NFA) : NFA := { m with current_states := [0] }

/-- The recorded length at a flagged position `i`: the fold over the
distinct alternative lengths keeping the largest `L` that fits
(`i - L + 1 ≥ 0`) and whose length-`L` suffix ending at `i` is itself
an alternative. -/
def nfaRecLen (alts : List (List Char)) (altLens : List Nat)
    (su : List Char) (i : Nat) : Nat :=
  altLens.foldl (fun L Lc =>
    if L < Lc ∧ Lc ≤ i + 1 ∧ slice su (i + 1 - Lc) Lc ∈ alts then Lc else L) 0

/-- The scanning loop of `NFA.find_all_matches`: step through the
remaining symbols, and at each flagged position record
`(i - L + 1, i)` for the computed length `L` if it is non-zero. -/
def nfaGo (g : NFAB) (alts : List (List Char)) (altLens : List Nat)
    (su : List Char) : List Nat → Nat → List Char → List (Int × Int)
  | _, _, [] => []
  | cur, i, c :: rest =>
    let r := nfaStepSet g cur c
    let L := nfaRecLen alts altLens su i
    (if r.2 ∧ L ≠ 0 then [((i : Int) - L + 1, (i : Int))] else []) ++
      nfaGo g alts altLens su r.1 (i + 1) rest

/-- The distinct lengths of the non-empty alternatives (`alt_lens`). -/
def nfaAltLens (alts : List (List Char)) : List Nat :=
  ((alts.filter (fun a => a ≠ [])).map List.length).dedup

/-- `NFA.find_all_matches`: upper-case the sequence, reset, drive `step`
across it recording `(i - L + 1, i)` at each flagged match, reset
again; returns the engine (left reset) with the match list. -/
def NFA.find_all_matches (m : NFA) (s : List Char) :
    NFA × List (Int × Int) :=
  let su := s.map up
  ({ m with current_states := [0] },
   nfaGo m.graph m.alternatives (nfaAltLens m.alternatives) su [0] 0 su)

/-- The active-state set of the alternatives engine after the first `i`
symbols of a (pre-upper-cased) sequence have been stepped from reset. -/
def nfaCurAt (g : NFAB) (su : List Char) (i : Nat) : List Nat :=
  (su.take i).foldl (fun cur c => (nfaStepSet g cur c).1) [0]

/-- Whether the alternatives engine's `step` flags a match at position
`i` of the scan performed by `find_all_matches`. -/
def nfaMatchedAt (g : NFAB) (su : List Char) (i : Nat) : Bool :=
  (nfaStepSet g (nfaCurAt g su i) (su.getD i ' ')).2

/-- Specification-side recorded length: the length of the longest
alternative that equals a suffix of the first `i + 1` sequence
symbols (0 when no alternative matches). -/
def nfaSpecLen (alts : List (List Char)) (su : List Char) (i : Nat) : Nat :=
  ((alts.filter (fun a => a ≠ [] ∧ a <:+ su.take (i + 1))).map
    List.length).foldl max 0

/-! ## Factory (`src/automata_factory.py`) -/

/-- The `AutomataType.DFA` tag. -/
def AutomataTypeDFA : String := "DFA"

/-- The `AutomataType.NFA` tag. -/
def AutomataTypeNFA : String := "NFA"

/-- The `AutomataType.ENFA` tag. -/
def AutomataTypeENFA : String := "Epsilon-NFA"

/-- The `AutomataType.PDA` tag. -/
def AutomataTypePDA : String := "PDA"

/-- The polymorphic result of the factory. -/
inductive Automaton where
  | dfa (d : DFA)
  | nfa (m : NFA)
  | enfa (e : EpsilonNFA)
  | pda (p : PDA)

/-- `create_automaton`: dispatch on the four supported tags, construct
the engine (letting the spacer parser's failure propagate unchanged),
and fail with an unsupported-type error on any other tag. -/
def create_automaton (t : String) (pat : List Char) :
    Except String Automaton :=
  if t = AutomataTypeDFA then Except.ok (Automaton.dfa (DFA.mk' pat))
  else if t = AutomataTypeNFA then Except.ok (Automaton.nfa (NFA.mk' pat))
  else if t = AutomataTypeENFA then
    match parse_enfa_pattern pat with
    | Except.ok q => Except.ok (Automaton.enfa (EpsilonNFA.mk' q))
    | Except.error e => Except.error e
  else if t = AutomataTypePDA then Except.ok (Automaton.pda (PDA.mk' 4))
  else Except.error "Unsupported automata type"

/-- A raised construction-time exception. -/
def isErr {α : Type} (x : Except String α) : Prop :=
  ∃ m, x = Except.error m

/-! ## Specification-side notions used to state the claims -/

/-- A call against an engine's stepping interface: `reset` or `step`
with an arbitrary symbol. -/
inductive EngineOp where
  | rst
  | stp (c : Char)

/-- Run a sequence of calls against the exact-match engine. -/
def dfaRunOps (d : DFA) (ops : List EngineOp) : DFA :=
  ops.foldl (fun d op =>
    match op with
    | EngineOp.rst => d.reset
    | EngineOp.stp c => (d.step c).1) d

/-- Run a sequence of calls against the alternatives engine. -/
def nfaRunOps (m : NFA) (ops : List EngineOp) : NFA :=
  ops.foldl (fun m op =>
    match op with
    | EngineOp.rst => m.reset
    | EngineOp.stp c => (m.step c).1) m

/-- Run a sequence of calls against the spacer engine. -/
def enfaRunOps (e : EpsilonNFA) (ops : List EngineOp) : EpsilonNFA :=
  ops.foldl (fun e op =>
    match op with
    | EngineOp.rst => e.reset
    | EngineOp.stp c => (e.step c).1) e

/-- Claim-side complement pairing: `A` with `T`, `G` with `C`, and any
other left symbol pairs with nothing. -/
def specPair (x y : Char) : Prop :=
  (x = 'A' ∧ y = 'T') ∨ (x = 'T' ∧ y = 'A') ∨
  (x = 'G' ∧ y = 'C') ∨ (x = 'C' ∧ y = 'G')

instance : DecidableRel specPair := fun x y => by
  unfold specPair; infer_instance

/-- Claim-side maximal complement-palindromic span: `[a, b]` is obtained
by expanding outward from the even-length center `(i, i+1)` while the
complement of the left symbol equals the right symbol, and it can be
extended no further. -/
def ClaimSpan (su : List Char) (i a b : Nat) : Prop :=
  a ≤ i ∧ a + b = 2 * i + 1 ∧ b < su.length ∧
  (∀ t, t ≤ i - a → specPair (su.getD (i - t) ' ') (su.getD (i + 1 + t) ' ')) ∧
  (a = 0 ∨ b + 1 = su.length ∨
    ¬ specPair (su.getD (a - 1) ' ') (su.getD (b + 1) ' '))

instance (su : List Char) (i a b : Nat) : Decidable (ClaimSpan su i a b) := by
  unfold ClaimSpan; infer_instance

end GA

namespace GA

/-! ## Supporting lemmas -/

/-- `up` either fixes a character or returns one of the 26 ASCII capitals. -/
theorem up_cases (c : Char) :
    up c = c ∨ up c ∈
      ['A','B','C','D','E','F','G','H','I','J','K','L','M',
       'N','O','P','Q','R','S','T','U','V','W','X','Y','Z'] := by
  by_cases h : c ∈ ['a','b','c','d','e','f','g','h','i','j','k','l','m',
                    'n','o','p','q','r','s','t','u','v','w','x','y','z']
  · right
    fin_cases h <;> decide
  · left
    unfold up
    repeat rw [if_neg (by rintro rfl; revert h; decide)]

/-- `up` fixes every ASCII capital. -/
theorem up_fix_upper (c : Char)
    (h : c ∈ ['A','B','C','D','E','F','G','H','I','J','K','L','M',
               'N','O','P','Q','R','S','T','U','V','W','X','Y','Z']) :
    up c = c := by
  fin_cases h <;> decide

/-- `up` is idempotent (as Python's `str.upper` is on ASCII input). -/
theorem up_idem (c : Char) : up (up c) = up c := by
  rcases up_cases c with h | h
  · rw [h, h]
  · exact up_fix_upper _ h

/-- `up` fixes alphabet letters. -/
theorem up_fix_alphabet (c : Char) (h : c ∈ alphabet) : up c = c := by
  fin_cases h <;> decide

/-- A string over the alphabet is fixed by upper-casing. -/
theorem map_up_of_alphabet (l : List Char) (h : ∀ c ∈ l, c ∈ alphabet) :
    l.map up = l := by
  induction l with
  | nil => rfl
  | cons a as ih =>
    simp only [List.map_cons]
    rw [up_fix_alphabet a (h a (by simp)), ih (fun c hc => h c (by simp [hc]))]

/-- An already upper-cased string is fixed by a second upper-casing. -/
theorem map_up_idem (l : List Char) : (l.map up).map up = l.map up := by
  simp only [List.map_map]
  exact List.map_congr_left (fun c _ => up_idem c)

/-- Appending one character extends a length-indexed `take`. -/
theorem take_succ_getD (l : List Char) (i : Nat) (h : i < l.length) (d : Char) :
    l.take (i + 1) = l.take i ++ [l.getD i d] := by
  induction l generalizing i with
  | nil => simp at h
  | cons a as ih =>
    cases i with
    | zero => simp
    | succ j =>
      simp only [List.take_succ_cons, List.getD_cons_succ]
      rw [ih j (by simpa using h)]
      simp

end GA

namespace GA

/-! ## Claim theorems -/

/-- C1: evaluation of the code at the failing input.  For pattern "AA" on
sequence "AAAA" the exact-match engine returns only the intervals
`[0,1]` and `[2,3]`: the overlapping occurrence `[1,2]` demanded by the
claim (and present in the sequence, as the final conjunct shows) is
missed, because the match-completing transition wraps to state 0 and
discards the in-progress overlap. -/
theorem c1_exact_match_misses_overlap :
    ((DFA.mk' ("AA".toList)).find_all_matches ("AAAA".toList)).2 =
        [(0, 1), (2, 3)] ∧
      ((1 : Int), (2 : Int)) ∉
        ((DFA.mk' ("AA".toList)).find_all_matches ("AAAA".toList)).2 ∧
      slice ("AAAA".toList) 1 2 = "AA".toList := by
  decide

/-- C8: the spacer and complement-palindrome engines' `find_all_matches`
leave every piece of caller-visible incremental state (the active-state
set; the stack, position and mode) exactly as it was. -/
theorem c8_batch_search_preserves_state :
    (∀ (e : EpsilonNFA) (s : List Char),
      (e.find_all_matchesM s).1 = e ∧
      (e.find_all_matchesM s).1.current_states = e.current_states) ∧
    (∀ (p : PDA) (s : List Char),
      (p.find_all_matchesM s).1 = p ∧
      (p.find_all_matchesM s).1.stack = p.stack ∧
      (p.find_all_matchesM s).1.pos = p.pos ∧
      (p.find_all_matchesM s).1.mode = p.mode) :=
  ⟨fun _ _ => ⟨rfl, rfl⟩, fun _ _ => ⟨rfl, rfl, rfl, rfl⟩⟩

/-- C9: `reset` is idempotent on every engine, and `find_all_matches` on
the exact-match and alternatives engines returns the same list when
called twice in a row, leaving the engine in its reset configuration
after each call. -/
theorem c9_reset_and_batch_idempotent :
    (∀ d : DFA, d.reset.reset = d.reset) ∧
    (∀ m : NFA, m.reset.reset = m.reset) ∧
    (∀ e : EpsilonNFA, e.reset.reset = e.reset) ∧
    (∀ p : PDA, p.reset.reset = p.reset) ∧
    (∀ (d : DFA) (s : List Char),
      (d.find_all_matches s).1 = d.reset ∧
      ((d.find_all_matches s).1.find_all_matches s).1 = d.reset ∧
      ((d.find_all_matches s).1.find_all_matches s).2 =
        (d.find_all_matches s).2) ∧
    (∀ (m : NFA) (s : List Char),
      (m.find_all_matches s).1 = m.reset ∧
      ((m.find_all_matches s).1.find_all_matches s).1 = m.reset ∧
      ((m.find_all_matches s).1.find_all_matches s).2 =
        (m.find_all_matches s).2) :=
  ⟨fun _ => rfl, fun _ => rfl, fun _ => rfl, fun _ => rfl,
   fun _ _ => ⟨rfl, rfl, rfl⟩, fun _ _ => ⟨rfl, rfl, rfl⟩⟩

/-- An alternatives-engine step never empties the active-state set. -/
theorem nfaStepSet_ne_nil (g : NFAB) (cur : List Nat) (c : Char) :
    (nfaStepSet g cur c).1 ≠ [] := by
  have h : (nfaStepSet g cur c).1 =
      if (0 :: cur).flatMap (fun u => transGet g.trans u (up c)) = [] then [0]
      else (0 :: cur).flatMap (fun u => transGet g.trans u (up c)) := rfl
  rw [h]
  split
  · simp
  · assumption

/-- The spacer closure always contains the fresh-attempt state. -/
theorem hd0_mem_epsilonClosure (l : List ENFAState) :
    ENFAState.hd 0 ∈ epsilonClosure l := by
  unfold epsilonClosure
  split
  · assumption
  · simp

/-- A spacer-engine step never empties the active-state set. -/
theorem enfaStepSet_ne_nil (e : EpsilonNFA) (cur : List ENFAState) (c : Char) :
    (enfaStepSet e cur c).1 ≠ [] := by
  have h := hd0_mem_epsilonClosure (enfaNexts e (epsilonClosure cur) (up c))
  intro hnil
  rw [show (enfaStepSet e cur c).1 =
    epsilonClosure (enfaNexts e (epsilonClosure cur) (up c)) from rfl] at hnil
  rw [hnil] at h
  exact (List.not_mem_nil _ h)

/-- C7: active-state sets stay non-empty.  The exact-match engine always
reports exactly one current state; for the alternatives and spacer
engines, any finite sequence of `reset`/`step` calls applied after a
`reset` leaves a non-empty active-state set (the alternatives step
re-seeds `{0}` when it would otherwise go empty, and the spacer closure
always re-adds `(head, 0)`). -/
theorem c7_active_set_nonempty :
    (∀ (d : DFA) (ops : List EngineOp),
      (dfaRunOps d ops).get_current_states.length = 1) ∧
    (∀ (m : NFA) (ops : List EngineOp),
      (nfaRunOps m.reset ops).current_states ≠ []) ∧
    (∀ (g : NFAB) (cur : List Nat) (c : Char), (nfaStepSet g cur c).1 ≠ []) ∧
    (∀ (e : EpsilonNFA) (ops : List EngineOp),
      (enfaRunOps e.reset ops).current_states ≠ []) ∧
    (∀ (e : EpsilonNFA) (cur : List ENFAState) (c : Char),
      (enfaStepSet e cur c).1 ≠ []) ∧
    (∀ l : List ENFAState, ENFAState.hd 0 ∈ epsilonClosure l) := by
  refine ⟨fun d ops => rfl, ?_, nfaStepSet_ne_nil, ?_, enfaStepSet_ne_nil,
    hd0_mem_epsilonClosure⟩
  · intro m ops
    have key : ∀ (ops : List EngineOp) (m : NFA), m.current_states ≠ [] →
        (nfaRunOps m ops).current_states ≠ [] := by
      intro ops
      induction ops with
      | nil => intro m hm; exact hm
      | cons op rest ih =>
        intro m hm
        cases op with
        | rst => exact ih _ (by simp [NFA.reset])
        | stp c => exact ih _ (nfaStepSet_ne_nil _ _ _)
    exact key ops m.reset (by simp [NFA.reset])
  · intro e ops
    have key : ∀ (ops : List EngineOp) (e : EpsilonNFA), e.current_states ≠ [] →
        (enfaRunOps e ops).current_states ≠ [] := by
      intro ops
      induction ops with
      | nil => intro e he; exact he
      | cons op rest ih =>
        intro e he
        cases op with
        | rst => exact ih _ (by simp [EpsilonNFA.reset])
        | stp c => exact ih _ (enfaStepSet_ne_nil _ _ _)
    exact key ops e.reset (by simp [EpsilonNFA.reset])

end GA

namespace GA

/-- Generic invariant preservation along a left fold. -/
theorem foldl_inv {α β : Type _} (P : β → Prop) (f : β → α → β) :
    ∀ (l : List α) (b : β), P b → (∀ x ∈ l, ∀ st, P st → P (f st x)) →
      P (l.foldl f b)
  | [], b, hb, _ => hb
  | x :: xs, b, hb, hf =>
      foldl_inv P f xs (f b x) (hf x (by simp) b hb)
        (fun y hy st hst => hf y (by simp [hy]) st hst)

/-- A successful prefix-map lookup is a membership. -/
theorem lookupP_mem {p : List Char} {m : List (List Char × Nat)} {v : Nat}
    (h : lookupP p m = some v) : (p, v) ∈ m := by
  unfold lookupP at h
  rcases Option.map_eq_some'.mp h with ⟨e, he, hv⟩
  have hp := List.find?_some he
  have hm := List.mem_of_find?_eq_some he
  have : e.1 = p := by simpa using hp
  have : e = (p, v) := by
    cases e; simp_all
  rw [this] at hm
  exact hm

/-- Membership in the transition multimap accessor. -/
theorem transGet_mem (tr : List ((Nat × Char) × Nat)) (u : Nat) (c : Char)
    (v : Nat) : v ∈ transGet tr u c ↔ ((u, c), v) ∈ tr := by
  unfold transGet
  simp only [List.mem_map, List.mem_filter, decide_eq_true_eq]
  constructor
  · rintro ⟨e, ⟨he, h1⟩, h2⟩
    rcases e with ⟨uc, w⟩
    simp only at h1 h2
    rw [h1, h2] at he
    exact he
  · intro h
    exact ⟨((u, c), v), ⟨h, rfl⟩, rfl⟩

/-- The structural invariant of the trie built by `NFA._build_graph`:
prefix-map ids are fresh, injective and zero only for the empty prefix;
edges into 0 are exactly the final-return edges; every other edge
extends a mapped prefix by its label; every final edge completes an
alternative; and every edge label occurs in some alternative. -/
structure TrieInv (alts : List (List Char)) (st : NFAB) : Prop where
  one_le : 1 ≤ st.nextId
  pmap_lt : ∀ pv ∈ st.pmap, pv.2 < st.nextId
  pmap_zero : ∀ pv ∈ st.pmap, (pv.2 = 0 ↔ pv.1 = [])
  pmap_nil : ([], 0) ∈ st.pmap
  pmap_inj : ∀ pv ∈ st.pmap, ∀ qw ∈ st.pmap, pv.2 = qw.2 → pv.1 = qw.1
  trans_zero : ∀ e ∈ st.trans, e.2 = 0 → e.1 ∈ st.finals
  trans_succ : ∀ e ∈ st.trans, e.2 ≠ 0 →
    ∃ pq, (pq, e.1.1) ∈ st.pmap ∧ (pq ++ [e.1.2], e.2) ∈ st.pmap
  finals_ok : ∀ f ∈ st.finals, ∃ pq, (pq, f.1) ∈ st.pmap ∧ pq ++ [f.2] ∈ alts
  labels : ∀ e ∈ st.trans, ∃ a ∈ alts, e.1.2 ∈ a

/-- `goAlt` preserves the trie invariant when walking an alternative from
a state that represents the consumed prefix. -/
theorem goAlt_inv (alts : List (List Char)) (alt : List Char) (ha : alt ∈ alts) :
    ∀ (suf : List Char) (st : NFAB) (u : Nat) (pref : List Char),
      TrieInv alts st → (pref, u) ∈ st.pmap → pref ++ suf = alt →
      TrieInv alts (goAlt st u pref suf) := by
  intro suf
  induction suf with
  | nil =>
    intro st u pref hI _ _
    simpa [goAlt] using hI
  | cons c rest ih =>
    intro st u pref hI hm he
    cases rest with
    | nil =>
      simp only [goAlt]
      refine ⟨hI.one_le, hI.pmap_lt, hI.pmap_zero, hI.pmap_nil, hI.pmap_inj,
        ?_, ?_, ?_, ?_⟩
      · intro e hme h0
        rcases List.mem_append.mp hme with h | h
        · exact List.mem_append.mpr (Or.inl (hI.trans_zero e h h0))
        · simp only [List.mem_singleton] at h
          rw [h]
          exact List.mem_append.mpr (Or.inr (by simp))
      · intro e hme hne
        rcases List.mem_append.mp hme with h | h
        · exact hI.trans_succ e h hne
        · simp only [List.mem_singleton] at h
          rw [h] at hne
          simp at hne
      · intro f hmf
        rcases List.mem_append.mp hmf with h | h
        · exact hI.finals_ok f h
        · simp only [List.mem_singleton] at h
          rw [h]
          refine ⟨pref, hm, ?_⟩
          simpa using he ▸ ha
      · intro e hme
        rcases List.mem_append.mp hme with h | h
        · exact hI.labels e h
        · simp only [List.mem_singleton] at h
          rw [h]
          exact ⟨alt, ha, by rw [← he]; simp⟩
    | cons c2 rest' =>
      simp only [goAlt]
      cases hl : lookupP (pref ++ [c]) st.pmap with
      | some v =>
        have hv : (pref ++ [c], v) ∈ st.pmap := lookupP_mem hl
        have hvne : v ≠ 0 := by
          intro h0
          have := (hI.pmap_zero _ hv).mp h0
          simp at this
        have hI' : TrieInv alts
            { st with trans := st.trans ++ [((u, c), v)] } := by
          refine ⟨hI.one_le, hI.pmap_lt, hI.pmap_zero, hI.pmap_nil, hI.pmap_inj,
            ?_, ?_, hI.finals_ok, ?_⟩
          · intro e hme h0
            rcases List.mem_append.mp hme with h | h
            · exact hI.trans_zero e h h0
            · simp only [List.mem_singleton] at h
              rw [h] at h0
              exact absurd h0 hvne
          · intro e hme hne
            rcases List.mem_append.mp hme with h | h
            · exact hI.trans_succ e h hne
            · simp only [List.mem_singleton] at h
              rw [h]
              exact ⟨pref, hm, hv⟩
          · intro e hme
            rcases List.mem_append.mp hme with h | h
            · exact hI.labels e h
            · simp only [List.mem_singleton] at h
              rw [h]
              exact ⟨alt, ha, by rw [← he]; simp⟩
        exact ih _ v (pref ++ [c]) hI' hv (by rw [← he]; simp)
      | none =>
        have hvne : st.nextId ≠ 0 := by
          have := hI.one_le
          omega
        have hI' : TrieInv alts
            { nextId := st.nextId + 1, pmap := st.pmap ++ [(pref ++ [c], st.nextId)],
              trans := st.trans ++ [((u, c), st.nextId)], finals := st.finals } := by
          refine ⟨by show 1 ≤ st.nextId + 1; omega, ?_, ?_, ?_, ?_, ?_, ?_, ?_, ?_⟩
          · intro pv hpv
            rcases List.mem_append.mp hpv with h | h
            · have := hI.pmap_lt pv h
              show pv.2 < st.nextId + 1
              omega
            · simp only [List.mem_singleton] at h
              rw [h]
              simp
          · intro pv hpv
            rcases List.mem_append.mp hpv with h | h
            · exact hI.pmap_zero pv h
            · simp only [List.mem_singleton] at h
              rw [h]
              simp only
              constructor
              · intro h0; exact absurd h0 hvne
              · intro h0; simp at h0
          · exact List.mem_append.mpr (Or.inl hI.pmap_nil)
          · intro pv hpv qw hqw heq
            rcases List.mem_append.mp hpv with h1 | h1 <;>
              rcases List.mem_append.mp hqw with h2 | h2
            · exact hI.pmap_inj pv h1 qw h2 heq
            · simp only [List.mem_singleton] at h2
              have := hI.pmap_lt pv h1
              rw [h2] at heq
              simp only at heq
              omega
            · simp only [List.mem_singleton] at h1
              have := hI.pmap_lt qw h2
              rw [h1] at heq
              simp only at heq
              omega
            · simp only [List.mem_singleton] at h1 h2
              rw [h1, h2]
          · intro e hme h0
            rcases List.mem_append.mp hme with h | h
            · exact hI.trans_zero e h h0
            · simp only [List.mem_singleton] at h
              rw [h] at h0
              exact absurd h0 hvne
          · intro e hme hne
            rcases List.mem_append.mp hme with h | h
            · rcases hI.trans_succ e h hne with ⟨pq, h1, h2⟩
              exact ⟨pq, List.mem_append.mpr (Or.inl h1),
                List.mem_append.mpr (Or.inl h2)⟩
            · simp only [List.mem_singleton] at h
              rw [h]
              exact ⟨pref, List.mem_append.mpr (Or.inl hm),
                List.mem_append.mpr (Or.inr (by simp))⟩
          · intro f hmf
            rcases hI.finals_ok f hmf with ⟨pq, h1, h2⟩
            exact ⟨pq, List.mem_append.mpr (Or.inl h1), h2⟩
          · intro e hme
            rcases List.mem_append.mp hme with h | h
            · exact hI.labels e h
            · simp only [List.mem_singleton] at h
              rw [h]
              exact ⟨alt, ha, by rw [← he]; simp⟩
        exact ih _ st.nextId (pref ++ [c]) hI'
          (List.mem_append.mpr (Or.inr (by simp))) (by rw [← he]; simp)

/-- The built trie satisfies the invariant. -/
theorem buildNFA_inv (alts : List (List Char)) :
    TrieInv alts (buildNFA alts) := by
  unfold buildNFA
  apply foldl_inv (TrieInv alts)
  · exact ⟨by decide, by intro pv h; simp at h; rw [h]; simp,
      by intro pv h; simp at h; rw [h]; simp,
      by simp,
      by intro pv h1 qw h2 _; simp at h1 h2; rw [h1, h2],
      by intro e h; simp at h,
      by intro e h _; simp at h,
      by intro f h; simp at h,
      by intro e h; simp at h⟩
  · intro alt halt st hst
    by_cases h : alt = []
    · simpa [h] using hst
    · simpa [h] using goAlt_inv alts alt halt alt st 0 [] hst hst.pmap_nil rfl

end GA

namespace GA

/-- Membership in the spacer closure. -/
theorem mem_epsilonClosure (st : ENFAState) (l : List ENFAState) :
    st ∈ epsilonClosure l ↔ st = ENFAState.hd 0 ∨ st ∈ l := by
  unfold epsilonClosure
  split
  · constructor
    · exact fun h => Or.inr h
    · rintro (rfl | h)
      · assumption
      · assumption
  · simp

/-- A defaulted index read at a valid index is a list member. -/
theorem getD_mem {l : List Char} {n : Nat} (h : n < l.length) (d : Char) :
    l.getD n d ∈ l := by
  induction l generalizing n with
  | nil => simp at h
  | cons a as ih =>
    cases n with
    | zero => simp
    | succ m =>
      simp only [List.getD_cons_succ]
      exact List.mem_cons_of_mem _ (ih (by simpa using h))

/-- The exact-match engine ignores out-of-alphabet symbols. -/
theorem dfaStep_not_alpha (p : List Char) (st : Nat) (c : Char)
    (hc : up c ∉ alphabet) : dfaStep p st c = (st, false) := by
  unfold dfaStep
  simp only [hc, if_false]

/-- When a pattern's alternatives use only alphabet letters, stepping an
out-of-alphabet symbol can fire no edge, so no match is flagged. -/
theorem nfaStepSet_matched_false (alts : List (List Char)) (cur : List Nat)
    (c : Char) (hc : up c ∉ alphabet)
    (halts : ∀ a ∈ alts, ∀ ch ∈ a, ch ∈ alphabet) :
    (nfaStepSet (buildNFA alts) cur c).2 = false := by
  have hI := buildNFA_inv alts
  have hempty : ∀ u, transGet (buildNFA alts).trans u (up c) = [] := by
    intro u
    rw [List.eq_nil_iff_forall_not_mem]
    intro v hv
    rcases hI.labels _ ((transGet_mem _ _ _ _).mp hv) with ⟨a, ha, hch⟩
    exact hc (halts a ha _ hch)
  have h : (nfaStepSet (buildNFA alts) cur c).2 =
      (0 :: cur).any (fun u =>
        (transGet (buildNFA alts).trans u (up c)).any (fun v =>
          decide ((u, up c) ∈ (buildNFA alts).finals) ||
            (decide (v = 0) && decide (u ≠ 0)))) := rfl
  rw [h]
  rw [List.any_eq_false]
  intro u _
  rw [hempty u]
  simp

/-- When the tail motif uses only alphabet letters, stepping an
out-of-alphabet symbol cannot put the spacer engine in its accept
state, so no match is flagged. -/
theorem enfaStepSet_matched_false (e : EpsilonNFA) (cur : List ENFAState)
    (c : Char) (hc : up c ∉ alphabet)
    (ht : ∀ ch ∈ e.tail, ch ∈ alphabet) :
    (enfaStepSet e cur c).2 = false := by
  have h : (enfaStepSet e cur c).2 = decide (ENFAState.tl e.tail.length ∈
      epsilonClosure (enfaNexts e (epsilonClosure cur) (up c))) := rfl
  rw [h, decide_eq_false_iff_not]
  intro hmem
  rcases (mem_epsilonClosure _ _).mp hmem with heq | hmem2
  · cases heq
  rcases List.mem_flatMap.mp hmem2 with ⟨st, _, hin⟩
  cases st with
  | hd k =>
    simp only at hin
    split at hin
    · split at hin <;> simp_all
    · simp at hin
  | sp g =>
    simp only at hin
    rcases List.mem_append.mp hin with h1 | h1
    · split at h1 <;> simp_all
    · split at h1
      · next hcond =>
        simp only [List.mem_singleton] at h1
        have h01 : (0 : Nat) < e.tail.length := hcond.2.1
        have : up c ∈ e.tail := by
          rw [← hcond.2.2]
          exact getD_mem h01 ' '
        exact hc (ht _ this)
      · simp at h1
  | tl k =>
    simp only at hin
    split at hin
    · next hcond =>
      simp only [List.mem_singleton] at hin
      have : up c ∈ e.tail := by
        rw [← hcond.2]
        exact getD_mem hcond.1 ' '
      exact hc (ht _ this)
    · simp at hin

end GA

namespace GA

/-- C2 counterexample: the claim fails as stated.  On the out-of-alphabet
symbol `X`, the alternatives engine collapses a reachable active set
containing state 1 to `{0}`; the spacer engine advances a reachable
spacer counter from `(spacer, 0)` to `(spacer, 1)`; and the
complement-palindrome engine pushes the symbol, changing its stack and
position.  Only the exact-match engine leaves its state unchanged. -/
theorem c2_counterexample_state_changes :
    (1 ∈ (((NFA.mk' ("ATG".toList)).step 'A').1).current_states ∧
     1 ∉ (((((NFA.mk' ("ATG".toList)).step 'A').1).step 'X').1).current_states) ∧
    (ENFAState.sp 0 ∈
       (((((((EpsilonNFA.mk' ("TATA".toList, 1, 3, "TATA".toList)).step 'T').1).step
             'A').1).step 'T').1.step 'A').1.current_states ∧
     ENFAState.sp 0 ∉
       ((((((((EpsilonNFA.mk' ("TATA".toList, 1, 3, "TATA".toList)).step 'T').1).step
             'A').1).step 'T').1.step 'A').1.step 'X').1.current_states) ∧
    (((PDA.mk' 4).step 'X').1.stack = ['X'] ∧ (PDA.mk' 4).stack = [] ∧
     ((PDA.mk' 4).step 'X').1.pos = 1 ∧ (PDA.mk' 4).pos = 0) := by
  decide

/-- C2 amended: for every symbol whose upper-cased form is outside the
alphabet, every engine reports `is_match = false` (for the alternatives
and spacer engines, under patterns over the alphabet), and the
exact-match engine additionally leaves its caller-visible state
unchanged; the other three engines may mutate their state. -/
theorem c2_out_of_alphabet_amended :
    (∀ (d : DFA) (c : Char), up c ∉ alphabet →
      (d.step c).1 = d ∧ (d.step c).2 = false) ∧
    (∀ (pat : List Char) (cur : List Nat) (c : Char), up c ∉ alphabet →
      (∀ a ∈ nfaAlternatives pat, ∀ ch ∈ a, ch ∈ alphabet) →
      (nfaStepSet (buildNFA (nfaAlternatives pat)) cur c).2 = false) ∧
    (∀ (e : EpsilonNFA) (cur : List ENFAState) (c : Char), up c ∉ alphabet →
      (∀ ch ∈ e.tail, ch ∈ alphabet) → (enfaStepSet e cur c).2 = false) ∧
    (∀ (p : PDA) (c : Char), (p.step c).2 = false) := by
  refine ⟨?_, ?_, ?_, ?_⟩
  · intro d c hc
    constructor
    · cases d with
      | mk pat st => simp [DFA.step, dfaStep_not_alpha _ _ _ hc]
    · simp [DFA.step, dfaStep_not_alpha _ _ _ hc]
  · intro pat cur c hc halts
    exact nfaStepSet_matched_false _ cur c hc halts
  · intro e cur c hc ht
    exact enfaStepSet_matched_false e cur c hc ht
  · intro p c
    rfl

/-- C2 amended, witness: the amended statement applied at concrete
engines and the concrete out-of-alphabet symbol `X`. -/
theorem c2_out_of_alphabet_amended_witness :
    ((DFA.mk' ("AT".toList)).step 'X').1 = DFA.mk' ("AT".toList) ∧
    (nfaStepSet (buildNFA (nfaAlternatives ("ATG".toList))) [0] 'X').2 = false ∧
    (enfaStepSet (EpsilonNFA.mk' ("TATA".toList, 1, 3, "TATA".toList))
      [ENFAState.sp 0] 'X').2 = false ∧
    ((PDA.mk' 4).step 'X').2 = false :=
  ⟨(c2_out_of_alphabet_amended.1 (DFA.mk' ("AT".toList)) 'X' (by decide)).1,
   c2_out_of_alphabet_amended.2.1 ("ATG".toList) [0] 'X' (by decide) (by decide),
   c2_out_of_alphabet_amended.2.2.1 _ [ENFAState.sp 0] 'X' (by decide) (by decide),
   c2_out_of_alphabet_amended.2.2.2 (PDA.mk' 4) 'X'⟩

end GA

namespace GA

/-- Soundness invariant of the exact-match scanning loop: if the current
state records that the last `st` consumed symbols spell the first `st`
pattern characters, then every interval the loop goes on to record is a
genuine occurrence of the pattern. -/
theorem dfaGo_sound (p : List Char) (hp : p ≠ []) :
    ∀ (rest : List Char) (st : Nat) (pre : List Char),
      (∀ c ∈ rest, c ∈ alphabet) →
      st < p.length → st ≤ pre.length →
      pre.drop (pre.length - st) = p.take st →
      ∀ ab ∈ dfaGo p st pre.length rest,
        ∃ e : Nat, ab = ((e : Int) - p.length + 1, (e : Int)) ∧
          e < pre.length + rest.length ∧ p.length ≤ e + 1 ∧
          slice (pre ++ rest) (e + 1 - p.length) p.length = p := by
  intro rest
  induction rest with
  | nil =>
    intro st pre _ _ _ _ ab hab
    simp [dfaGo] at hab
  | cons c rest' ih =>
    intro st pre hal hst hstpre hsuf ab hab
    have hc : c ∈ alphabet := hal c (by simp)
    have hup : up c = c := up_fix_alphabet c hc
    have hn : 0 < p.length := List.length_pos.mpr hp
    have hstep : dfaStep p st c = ((dfaTransFn p st c).getD 0,
        decide (st + 1 = p.length ∧ (dfaTransFn p st c).getD 0 = 0 ∧
          c = p.getD (p.length - 1) ' ')) := by
      show (if up c ∈ alphabet then _ else _) = _
      rw [hup, if_pos hc]
    have htr : dfaTransFn p st c = some
        (if c = p.getD st ' ' then (if st = p.length - 1 then 0 else st + 1)
         else if c = p.getD 0 ' ' ∧ st ≠ 0 then 1 else 0) := by
      unfold dfaTransFn
      rw [if_neg hp, if_pos ⟨hst, hc⟩]
    rw [show dfaGo p st pre.length (c :: rest') =
      (if (dfaStep p st c).2 then
        [((pre.length : Int) - p.length + 1, (pre.length : Int))] else []) ++
      dfaGo p (dfaStep p st c).1 (pre.length + 1) rest' from rfl] at hab
    have hinv : (dfaStep p st c).1 < p.length ∧
        (dfaStep p st c).1 ≤ (pre ++ [c]).length ∧
        (pre ++ [c]).drop ((pre ++ [c]).length - (dfaStep p st c).1) =
          p.take (dfaStep p st c).1 := by
      rw [hstep]
      simp only [htr, Option.getD_some]
      by_cases h1 : c = p.getD st ' '
      · by_cases h2 : st = p.length - 1
        · rw [if_pos h1, if_pos h2]
          refine ⟨hn, by simp, ?_⟩
          simp
        · rw [if_pos h1, if_neg h2]
          refine ⟨by omega, by simp only [List.length_append, List.length_singleton, List.length_cons, List.length_nil, List.length_drop]; omega, ?_⟩
          have hd : (pre ++ [c]).length - (st + 1) = pre.length - st := by
            simp only [List.length_append, List.length_singleton, List.length_cons, List.length_nil, List.length_drop]; omega
          rw [hd, List.drop_append_of_le_length (by omega), hsuf,
            take_succ_getD p st hst ' ', ← h1]
      · rw [if_neg h1]
        by_cases h3 : c = p.getD 0 ' ' ∧ st ≠ 0
        · rw [if_pos h3]
          have hn2 : 2 ≤ p.length := by
            rcases h3 with ⟨_, h0⟩
            omega
          refine ⟨by omega, by simp, ?_⟩
          have hd : (pre ++ [c]).length - 1 = pre.length := by simp
          rw [hd, List.drop_append_of_le_length (le_refl _), List.drop_length]
          have : p.take 1 = p.take 0 ++ [p.getD 0 ' '] :=
            take_succ_getD p 0 hn ' '
          simp only [List.take_zero, List.nil_append] at this
          rw [this, ← h3.1]
          simp
        · rw [if_neg h3]
          refine ⟨hn, by simp, ?_⟩
          simp
    rcases List.mem_append.mp hab with hmem | hmem
    · -- the interval emitted at this position
      split at hmem
      case isTrue hfl =>
        rw [hstep] at hfl
        simp only [decide_eq_true_eq] at hfl
        rcases hfl with ⟨hlen, _, hlast⟩
        simp only [List.mem_singleton] at hmem
        refine ⟨pre.length, hmem, by simp only [List.length_append, List.length_singleton, List.length_cons, List.length_nil, List.length_drop]; omega, by omega, ?_⟩
        have ha1 : pre.length + 1 - p.length ≤ pre.length := by omega
        rw [show pre ++ c :: rest' = (pre ++ [c]) ++ rest' by simp]
        unfold slice
        rw [List.drop_append_of_le_length (by simp only [List.length_append, List.length_singleton, List.length_cons, List.length_nil, List.length_drop]; omega),
          List.take_append_eq_append_take]
        have hd : pre.length + 1 - p.length = pre.length - st := by omega
        have hlen2 : ((pre ++ [c]).drop (pre.length + 1 - p.length)).length =
            p.length := by
          simp only [List.length_append, List.length_singleton, List.length_cons, List.length_nil, List.length_drop]
          omega
        rw [List.take_of_length_le (le_of_eq hlen2),
          show p.length - ((pre ++ [c]).drop (pre.length + 1 - p.length)).length
            = 0 by omega]
        simp only [List.take_zero, List.append_nil]
        rw [hd, List.drop_append_of_le_length (by omega), hsuf]
        have : p.take (st + 1) = p.take st ++ [p.getD st ' '] :=
          take_succ_getD p st hst ' '
        rw [hlen] at this
        rw [show st = p.length - 1 by omega] at this ⊢
        rw [List.take_length] at this
        rw [hlast]
        exact this.symm
      case isFalse =>
        simp at hmem
    · -- the recursive part
      have := ih (dfaStep p st c).1 (pre ++ [c])
        (fun x hx => hal x (by simp [hx])) hinv.1 hinv.2.1 hinv.2.2 ab
        (by simpa using hmem)
      rcases this with ⟨e, h1, h2, h3, h4⟩
      refine ⟨e, h1, by simp only [List.length_append, List.length_singleton, List.length_cons, List.length_nil, List.length_drop] at h2 ⊢; omega, h3, ?_⟩
      rw [show pre ++ c :: rest' = (pre ++ [c]) ++ rest' by simp]
      exact h4

/-- C10: soundness of the exact-match batch search.  For a non-empty
pattern and a sequence over the alphabet, every interval returned by
`find_all_matches` starts at a non-negative index, spans exactly the
pattern length, ends inside the sequence, and carries exactly the
pattern — even though some occurrences may be missed. -/
theorem c10_exact_match_sound (p s : List Char) (hp : p ≠ [])
    (hpA : ∀ c ∈ p, c ∈ alphabet) (hsA : ∀ c ∈ s, c ∈ alphabet) :
    ∀ ab ∈ ((DFA.mk' p).find_all_matches s).2,
      0 ≤ ab.1 ∧ ab.2 - ab.1 + 1 = (p.length : Int) ∧
      ab.2 < (s.length : Int) ∧ slice s ab.1.toNat p.length = p := by
  intro ab hab
  have hmem : ab ∈ dfaGo p 0 0 s := by
    have h : ((DFA.mk' p).find_all_matches s).2 = dfaGo (p.map up) 0 0 s := rfl
    rw [h, map_up_of_alphabet p hpA] at hab
    exact hab
  have := dfaGo_sound p hp s 0 [] hsA (List.length_pos.mpr hp) (by simp)
    (by simp) ab (by simpa using hmem)
  rcases this with ⟨e, habe, he1, he2, hslice⟩
  simp only [List.nil_append, List.length_nil, Nat.zero_add] at he1 hslice
  rw [habe]
  refine ⟨by simp; omega, by push_cast; ring, by simp; omega, ?_⟩
  have ht : ((e : Int) - p.length + 1).toNat = e + 1 - p.length := by omega
  rw [ht]
  exact hslice

/-- C10 witness: the soundness theorem applied to pattern "AT" and
sequence "CATG", whose single reported interval is `[1, 2]`. -/
theorem c10_exact_match_sound_witness :
    0 ≤ ((1 : Int), (2 : Int)).1 ∧
    ((1 : Int), (2 : Int)).2 - ((1 : Int), (2 : Int)).1 + 1 =
      ((("AT".toList)).length : Int) ∧
    ((1 : Int), (2 : Int)).2 < ((("CATG".toList)).length : Int) ∧
    slice ("CATG".toList) (((1 : Int), (2 : Int)).1).toNat
      (("AT".toList)).length = "AT".toList :=
  c10_exact_match_sound ("AT".toList) ("CATG".toList) (by decide) (by decide)
    (by decide) ((1 : Int), (2 : Int)) (by decide)

end GA

namespace GA

/-- A slice of combined length splits into its two sub-slices. -/
theorem slice_append_split (su h t : List Char) (i : Nat)
    (hfit : i + (h.length + t.length) ≤ su.length) :
    slice su i (h.length + t.length) = h ++ t ↔
      (slice su i h.length = h ∧ slice su (i + h.length) t.length = t) := by
  have hsplit : slice su i (h.length + t.length) =
      slice su i h.length ++ slice su (i + h.length) t.length := by
    unfold slice
    rw [List.take_add]
    congr 1
    rw [List.drop_drop]
  rw [hsplit]
  constructor
  · intro heq
    have hlh : (slice su i h.length).length = h.length := by
      unfold slice
      rw [List.length_take, List.length_drop]
      omega
    exact List.append_inj heq hlh
  · rintro ⟨h1, h2⟩
    rw [h1, h2]

/-- The unfolded form of the spacer batch search. -/
theorem enfaFAM_eq (e : EpsilonNFA) (s : List Char) :
    e.find_all_matches s =
      (List.range ((s.map up).length + 1 - e.head.length)).flatMap (fun i =>
        if slice (s.map up) i e.head.length = e.head then
          (List.range' e.min_gap (e.max_gap + 1 - e.min_gap)).flatMap (fun g =>
            if (i + e.head.length + g) + e.tail.length ≤ (s.map up).length ∧
                slice (s.map up) (i + e.head.length + g) e.tail.length = e.tail
            then
              [((i : Int), ((i + e.head.length + g : Nat) : Int) +
                e.tail.length - 1)]
            else [])
        else []) := rfl

/-- C3: the spacer engine's batch search returns exactly the intervals
`[i, i + |head| + g + |tail| - 1]` over all pairs `(i, g)` with the head
exactly at `i`, `g` in `[min_gap, max_gap]`, and the tail exactly at
`i + |head| + g` — one interval per gap length; the two cited examples
hold, and `min_gap = max_gap = 0` degenerates to exact matching of the
concatenation `head ++ tail`. -/
theorem c3_spacer_batch_characterization :
    (∀ (e : EpsilonNFA) (s : List Char) (a b : Int),
      (a, b) ∈ e.find_all_matches s ↔
        ∃ i g : Nat, e.min_gap ≤ g ∧ g ≤ e.max_gap ∧
          i + e.head.length ≤ (s.map up).length ∧
          slice (s.map up) i e.head.length = e.head ∧
          (i + e.head.length + g) + e.tail.length ≤ (s.map up).length ∧
          slice (s.map up) (i + e.head.length + g) e.tail.length = e.tail ∧
          a = (i : Int) ∧
          b = (i : Int) + e.head.length + g + e.tail.length - 1) ∧
    (parse_enfa_pattern ("TATA{1,3}TATA".toList) =
      Except.ok ("TATA".toList, 1, 3, "TATA".toList)) ∧
    ((EpsilonNFA.mk' ("TATA".toList, 1, 3, "TATA".toList)).find_all_matches
      ("TATAATATA".toList) = [(0, 8)]) ∧
    ((EpsilonNFA.mk' ("TATA".toList, 1, 3, "TATA".toList)).find_all_matches
      ("TATATATA".toList) = []) ∧
    (∀ (h t s : List Char) (cs : List ENFAState) (a b : Int),
      (a, b) ∈ (EpsilonNFA.mk h 0 0 t cs).find_all_matches s ↔
        ∃ i : Nat, i + (h.length + t.length) ≤ (s.map up).length ∧
          slice (s.map up) i (h.length + t.length) = h ++ t ∧
          a = (i : Int) ∧ b = (i : Int) + (h.length + t.length) - 1) := by
  have main : ∀ (e : EpsilonNFA) (s : List Char) (a b : Int),
      (a, b) ∈ e.find_all_matches s ↔
        ∃ i g : Nat, e.min_gap ≤ g ∧ g ≤ e.max_gap ∧
          i + e.head.length ≤ (s.map up).length ∧
          slice (s.map up) i e.head.length = e.head ∧
          (i + e.head.length + g) + e.tail.length ≤ (s.map up).length ∧
          slice (s.map up) (i + e.head.length + g) e.tail.length = e.tail ∧
          a = (i : Int) ∧
          b = (i : Int) + e.head.length + g + e.tail.length - 1 := by
    intro e s a b
    rw [enfaFAM_eq]
    constructor
    · intro hmem
      rcases List.mem_flatMap.mp hmem with ⟨i, hiR, hin⟩
      rw [List.mem_range] at hiR
      split at hin
      case isTrue hhead =>
        rcases List.mem_flatMap.mp hin with ⟨g, hgR, hin2⟩
        rw [List.mem_range'_1] at hgR
        split at hin2
        case isTrue hcond =>
          simp only [List.mem_singleton, Prod.mk.injEq] at hin2
          refine ⟨i, g, by omega, by omega, by omega, hhead,
            hcond.1, hcond.2, hin2.1, ?_⟩
          rw [hin2.2]
          push_cast
          ring
        case isFalse => simp at hin2
      case isFalse => simp at hin
    · rintro ⟨i, g, hg1, hg2, hfit1, hhead, hfit2, htail, ha, hb⟩
      apply List.mem_flatMap.mpr
      refine ⟨i, by rw [List.mem_range]; omega, ?_⟩
      rw [if_pos hhead]
      apply List.mem_flatMap.mpr
      refine ⟨g, by rw [List.mem_range'_1]; omega, ?_⟩
      rw [if_pos ⟨hfit2, htail⟩]
      simp only [List.mem_singleton, Prod.mk.injEq]
      refine ⟨ha, ?_⟩
      rw [hb]
      push_cast
      ring
  refine ⟨main, by rfl, by decide, by decide, ?_⟩
  intro h t s cs a b
  have hmin : (EpsilonNFA.mk h 0 0 t cs).min_gap = 0 := rfl
  have hmax : (EpsilonNFA.mk h 0 0 t cs).max_gap = 0 := rfl
  have hhd : (EpsilonNFA.mk h 0 0 t cs).head = h := rfl
  have htl : (EpsilonNFA.mk h 0 0 t cs).tail = t := rfl
  rw [main]
  simp only [hmin, hmax, hhd, htl]
  constructor
  · rintro ⟨i, g, hg1, hg2, hfit1, hhead, hfit2, htail, ha, hb⟩
    have hg0 : g = 0 := by omega
    subst hg0
    refine ⟨i, by omega, ?_, ha, ?_⟩
    · rw [slice_append_split _ h t i (by omega)]
      simp only [Nat.add_zero] at htail
      exact ⟨hhead, htail⟩
    · rw [hb]
      push_cast
      ring
  · rintro ⟨i, hfit, hconc, ha, hb⟩
    rw [slice_append_split _ h t i hfit] at hconc
    refine ⟨i, 0, le_refl _, le_refl _, by omega, hconc.1,
      by omega, by simpa using hconc.2, ha, ?_⟩
    rw [hb]
    push_cast
    ring

/-- C3 witness: the characterization applied to the engine for
"TATA{1,3}TATA" on "TATAATATA", producing its single full-span match. -/
theorem c3_spacer_batch_characterization_witness :
    ((0 : Int), (8 : Int)) ∈
      (EpsilonNFA.mk' ("TATA".toList, 1, 3, "TATA".toList)).find_all_matches
        ("TATAATATA".toList) :=
  (c3_spacer_batch_characterization.1
    (EpsilonNFA.mk' ("TATA".toList, 1, 3, "TATA".toList))
    ("TATAATATA".toList) 0 8).mpr
    ⟨0, 1, by decide, by decide, by decide, by decide, by decide, by decide,
      by decide, by decide⟩

end GA

namespace GA

/-- `splitFirst` at the first occurrence of the separator. -/
theorem splitFirst_append (sep : Char) (A B : List Char) (h : sep ∉ A) :
    splitFirst sep (A ++ sep :: B) = (A, B) := by
  unfold splitFirst
  induction A with
  | nil => simp
  | cons a A' ih =>
    have ha : a ≠ sep := fun he => h (by rw [he]; simp)
    have hmem : sep ∉ A' := fun hm => h (List.mem_cons_of_mem _ hm)
    have hih := ih hmem
    simp only [Prod.mk.injEq] at hih
    simp only [List.cons_append, List.takeWhile_cons, List.dropWhile_cons,
      Prod.mk.injEq]
    constructor
    · simpa [ha] using hih.1
    · simpa [ha] using hih.2

/-- Characters not changed into by `up`: membership in the upper-cased
string is membership in the original, for any non-capital fixed point
of `up` (such as braces and the comma). -/
theorem mem_map_up_iff (ch : Char) (hfix : up ch = ch)
    (hcap : ch ∉ ['A','B','C','D','E','F','G','H','I','J','K','L','M',
                   'N','O','P','Q','R','S','T','U','V','W','X','Y','Z']) :
    ∀ s : List Char, ch ∈ s.map up ↔ ch ∈ s := by
  intro s
  constructor
  · intro hm
    rcases List.mem_map.mp hm with ⟨c, hc, hup⟩
    rcases up_cases c with h | h
    · rw [h] at hup
      rw [← hup]
      exact hc
    · rw [hup] at h
      exact absurd h hcap
  · intro hm
    exact List.mem_map.mpr ⟨ch, hm, hfix⟩

/-- The parse of a string decomposed around its first braces reduces to
the bound check on the range text. -/
theorem parse_decomp (h1 r t1 : List Char) (hh : lbrace ∉ h1.map up)
    (hr : rbrace ∉ r.map up) :
    parse_enfa_pattern (h1 ++ lbrace :: r ++ rbrace :: t1) =
      match parseBounds (r.map up) with
      | none => Except.error "invalid literal for int"
      | some (a, b) =>
          if a < 0 ∨ b < a then Except.error "Invalid spacer range"
          else Except.ok (h1.map up, a.toNat, b.toNat, t1.map up) := by
  have hmap : (h1 ++ lbrace :: r ++ rbrace :: t1).map up =
      h1.map up ++ lbrace :: (r.map up ++ rbrace :: t1.map up) := by
    simp [show up lbrace = lbrace from by decide,
      show up rbrace = rbrace from by decide]
  unfold parse_enfa_pattern
  rw [hmap]
  rw [if_pos ⟨by simp, by simp⟩]
  rw [splitFirst_append lbrace (h1.map up) (r.map up ++ rbrace :: t1.map up) hh]
  simp only
  rw [if_pos (by simp)]
  rw [splitFirst_append rbrace (r.map up) (t1.map up) hr]

/-- C6: construction-time failures are synchronous and propagate.  A
spacer pattern with a missing brace, a non-integer bound (in either the
one- or two-bound form), or an inverted range fails to parse; the
factory forwards a parse failure unchanged, rejects unknown type tags,
and returns the four engine kinds for their tags. -/
theorem c6_construction_failures :
    (∀ s : List Char, lbrace ∉ s ∨ rbrace ∉ s →
      isErr (parse_enfa_pattern s)) ∧
    (∀ h1 r t1 : List Char, lbrace ∉ h1.map up → rbrace ∉ r.map up →
      ',' ∉ r.map up → pyInt (r.map up) = none →
      isErr (parse_enfa_pattern (h1 ++ lbrace :: r ++ rbrace :: t1))) ∧
    (∀ h1 r1 r2 t1 : List Char, lbrace ∉ h1.map up → rbrace ∉ r1.map up →
      rbrace ∉ r2.map up → ',' ∉ r1.map up →
      (pyInt (r1.map up) = none ∨ pyInt (r2.map up) = none) →
      isErr (parse_enfa_pattern
        (h1 ++ lbrace :: (r1 ++ ',' :: r2) ++ rbrace :: t1))) ∧
    (∀ (h1 r1 r2 t1 : List Char) (a b : Int), lbrace ∉ h1.map up →
      rbrace ∉ r1.map up → rbrace ∉ r2.map up → ',' ∉ r1.map up →
      pyInt (r1.map up) = some a → pyInt (r2.map up) = some b → b < a →
      isErr (parse_enfa_pattern
        (h1 ++ lbrace :: (r1 ++ ',' :: r2) ++ rbrace :: t1))) ∧
    (∀ (pat : List Char) (m : String), parse_enfa_pattern pat = Except.error m →
      create_automaton AutomataTypeENFA pat = Except.error m) ∧
    (∀ (t : String) (pat : List Char),
      t ∉ [AutomataTypeDFA, AutomataTypeNFA, AutomataTypeENFA, AutomataTypePDA] →
      create_automaton t pat = Except.error "Unsupported automata type") ∧
    (∀ pat : List Char, create_automaton AutomataTypeDFA pat =
      Except.ok (Automaton.dfa (DFA.mk' pat))) ∧
    (∀ pat : List Char, create_automaton AutomataTypeNFA pat =
      Except.ok (Automaton.nfa (NFA.mk' pat))) ∧
    (∀ (pat : List Char) (q : List Char × Nat × Nat × List Char),
      parse_enfa_pattern pat = Except.ok q →
      create_automaton AutomataTypeENFA pat =
        Except.ok (Automaton.enfa (EpsilonNFA.mk' q))) ∧
    (∀ pat : List Char, create_automaton AutomataTypePDA pat =
      Except.ok (Automaton.pda (PDA.mk' 4))) := by
  have hlb := mem_map_up_iff lbrace (by decide) (by decide)
  have hrb := mem_map_up_iff rbrace (by decide) (by decide)
  refine ⟨?_, ?_, ?_, ?_, ?_, ?_, ?_, ?_, ?_, ?_⟩
  · intro s h
    unfold parse_enfa_pattern
    rw [if_neg]
    · exact ⟨_, rfl⟩
    · rintro ⟨h1, h2⟩
      rcases h with h | h
      · exact h ((hlb s).mp h1)
      · exact h ((hrb s).mp h2)
  · intro h1 r t1 hh hr hcomma hnone
    rw [parse_decomp h1 r t1 hh hr]
    unfold parseBounds
    rw [if_neg hcomma, hnone]
    exact ⟨_, rfl⟩
  · intro h1 r1 r2 t1 hh hr1 hr2 hcomma hnone
    have hrall : rbrace ∉ (r1 ++ ',' :: r2).map up := by
      simp only [List.map_append, List.map_cons, List.mem_append,
        List.mem_cons, show up ',' = ',' from by decide]
      rintro (h | h | h)
      · exact hr1 h
      · exact absurd h.symm (by decide)
      · exact hr2 h
    rw [parse_decomp h1 (r1 ++ ',' :: r2) t1 hh hrall]
    unfold parseBounds
    have hmapr : (r1 ++ ',' :: r2).map up =
        r1.map up ++ ',' :: r2.map up := by
      simp [show up ',' = ',' from by decide]
    rw [hmapr]
    rw [if_pos (by simp)]
    rw [splitFirst_append ',' (r1.map up) (r2.map up) hcomma]
    rcases hnone with h | h
    · rw [h]
      rcases h2 : pyInt (r2.map up) with _ | b
      · exact ⟨_, rfl⟩
      · exact ⟨_, rfl⟩
    · rw [h]
      rcases h2 : pyInt (r1.map up) with _ | a
      · exact ⟨_, rfl⟩
      · exact ⟨_, rfl⟩
  · intro h1 r1 r2 t1 a b hh hr1 hr2 hcomma ha hb hba
    have hrall : rbrace ∉ (r1 ++ ',' :: r2).map up := by
      simp only [List.map_append, List.map_cons, List.mem_append,
        List.mem_cons, show up ',' = ',' from by decide]
      rintro (h | h | h)
      · exact hr1 h
      · exact absurd h.symm (by decide)
      · exact hr2 h
    rw [parse_decomp h1 (r1 ++ ',' :: r2) t1 hh hrall]
    unfold parseBounds
    have hmapr : (r1 ++ ',' :: r2).map up =
        r1.map up ++ ',' :: r2.map up := by
      simp [show up ',' = ',' from by decide]
    rw [hmapr]
    rw [if_pos (by simp)]
    rw [splitFirst_append ',' (r1.map up) (r2.map up) hcomma]
    rw [ha, hb]
    simp only
    rw [if_pos (Or.inr hba)]
    exact ⟨_, rfl⟩
  · intro pat m h
    unfold create_automaton
    rw [if_neg (by decide), if_neg (by decide), if_pos rfl, h]
  · intro t pat h
    unfold create_automaton
    rw [if_neg (fun he => h (by rw [he]; simp)),
      if_neg (fun he => h (by rw [he]; simp)),
      if_neg (fun he => h (by rw [he]; simp)),
      if_neg (fun he => h (by rw [he]; simp))]
  · intro pat
    rfl
  · intro pat
    unfold create_automaton
    rw [if_neg (by decide), if_pos rfl]
  · intro pat q h
    unfold create_automaton
    rw [if_neg (by decide), if_neg (by decide), if_pos rfl, h]
  · intro pat
    unfold create_automaton
    rw [if_neg (by decide), if_neg (by decide), if_neg (by decide), if_pos rfl]

/-- C6 witness: the failure and success cases at concrete inputs — a
brace-less pattern, a non-integer bound "X", an inverted range "3,1",
an unknown tag "GFA", and a successful DFA construction. -/
theorem c6_construction_failures_witness :
    isErr (parse_enfa_pattern ("TATATATA".toList)) ∧
    isErr (parse_enfa_pattern
      ("TATA".toList ++ lbrace :: "X".toList ++ rbrace :: "TATA".toList)) ∧
    isErr (parse_enfa_pattern ("TATA".toList ++
      lbrace :: ("3".toList ++ ',' :: "1".toList) ++ rbrace :: "TATA".toList)) ∧
    create_automaton "GFA" ("A".toList) =
      Except.error "Unsupported automata type" ∧
    create_automaton AutomataTypeDFA ("ATG".toList) =
      Except.ok (Automaton.dfa (DFA.mk' ("ATG".toList))) :=
  ⟨c6_construction_failures.1 ("TATATATA".toList) (Or.inl (by decide)),
   c6_construction_failures.2.1 ("TATA".toList) ("X".toList) ("TATA".toList)
     (by decide) (by decide) (by decide) (by decide),
   c6_construction_failures.2.2.2.1 ("TATA".toList) ("3".toList) ("1".toList)
     ("TATA".toList) 3 1 (by decide) (by decide) (by decide) (by decide)
     (by decide) (by decide) (by decide),
   c6_construction_failures.2.2.2.2.2.1 "GFA" ("A".toList) (by decide),
   c6_construction_failures.2.2.2.2.2.2.1 ("ATG".toList)⟩

end GA

namespace GA

/-- The state component of one alternatives-engine step, unfolded. -/
theorem nfaStepSet_fst_eq (g : NFAB) (cur : List Nat) (c : Char) :
    (nfaStepSet g cur c).1 =
      if (0 :: cur).flatMap (fun u => transGet g.trans u (up c)) = [] then [0]
      else (0 :: cur).flatMap (fun u => transGet g.trans u (up c)) := rfl

/-- The match flag of one alternatives-engine step, unfolded. -/
theorem nfaStepSet_snd_eq (g : NFAB) (cur : List Nat) (c : Char) :
    (nfaStepSet g cur c).2 =
      (0 :: cur).any (fun u =>
        (transGet g.trans u (up c)).any (fun v =>
          decide ((u, up c) ∈ g.finals) ||
            (decide (v = 0) && decide (u ≠ 0)))) := rfl

/-- In an invariant trie, only the empty prefix maps to state 0. -/
theorem pmap_zero_nil {alts : List (List Char)} {st : NFAB}
    (hI : TrieInv alts st) {p : List Char} (h : (p, 0) ∈ st.pmap) : p = [] :=
  (hI.pmap_zero (p, 0) h).mp rfl

/-- After one step, every active state's represented prefix is a suffix
of the consumed input extended by the read symbol. -/
theorem nfaStep_suffix (alts : List (List Char)) (t : List Char)
    (cur : List Nat) (c : Char) (hc : up c = c)
    (hcur : ∀ v ∈ cur, ∃ p, (p, v) ∈ (buildNFA alts).pmap ∧ p <:+ t) :
    ∀ v ∈ (nfaStepSet (buildNFA alts) cur c).1,
      ∃ p, (p, v) ∈ (buildNFA alts).pmap ∧ p <:+ (t ++ [c]) := by
  have hI := buildNFA_inv alts
  intro v hv
  rw [nfaStepSet_fst_eq, hc] at hv
  split at hv
  · simp only [List.mem_singleton] at hv
    rw [hv]
    exact ⟨[], hI.pmap_nil, t ++ [c], by simp⟩
  · rcases List.mem_flatMap.mp hv with ⟨u, hu, hvt⟩
    have hedge : ((u, c), v) ∈ (buildNFA alts).trans := (transGet_mem _ _ _ _).mp hvt
    by_cases hv0 : v = 0
    · rw [hv0]
      exact ⟨[], hI.pmap_nil, t ++ [c], by simp⟩
    · rcases hI.trans_succ _ hedge hv0 with ⟨pq, hpu, hpv⟩
      have hsuf : pq <:+ t := by
        rcases List.mem_cons.mp hu with h0 | hmem
        · rw [h0] at hpu
          rw [pmap_zero_nil hI hpu]
          exact ⟨t, by simp⟩
        · rcases hcur u hmem with ⟨q, hq, hqs⟩
          have : pq = q := hI.pmap_inj (pq, u) hpu (q, u) hq rfl
          rw [this]
          exact hqs
      rcases hsuf with ⟨w, hw⟩
      exact ⟨pq ++ [c], hpv, w, by rw [← List.append_assoc, hw]⟩

/-- If a step flags a match, some non-empty alternative is a suffix of
the input consumed so far extended by the read symbol. -/
theorem nfaStep_matched (alts : List (List Char)) (t : List Char)
    (cur : List Nat) (c : Char) (hc : up c = c)
    (hcur : ∀ v ∈ cur, ∃ p, (p, v) ∈ (buildNFA alts).pmap ∧ p <:+ t)
    (hm : (nfaStepSet (buildNFA alts) cur c).2 = true) :
    ∃ a ∈ alts, a ≠ [] ∧ a <:+ (t ++ [c]) := by
  have hI := buildNFA_inv alts
  rw [nfaStepSet_snd_eq, hc] at hm
  rw [List.any_eq_true] at hm
  rcases hm with ⟨u, hu, hm2⟩
  rw [List.any_eq_true] at hm2
  rcases hm2 with ⟨v, hvt, hcase⟩
  have hedge : ((u, c), v) ∈ (buildNFA alts).trans := (transGet_mem _ _ _ _).mp hvt
  have hfin : (u, c) ∈ (buildNFA alts).finals := by
    rcases Bool.or_eq_true_iff.mp hcase with h | h
    · exact of_decide_eq_true h
    · rcases Bool.and_eq_true_iff.mp h with ⟨h1, _⟩
      exact hI.trans_zero _ hedge (of_decide_eq_true h1)
  rcases hI.finals_ok _ hfin with ⟨pq, hpu, halt⟩
  have hsuf : pq <:+ t := by
    rcases List.mem_cons.mp hu with h0 | hmem
    · rw [h0] at hpu
      rw [pmap_zero_nil hI hpu]
      exact ⟨t, by simp⟩
    · rcases hcur u hmem with ⟨q, hq, hqs⟩
      have : pq = q := hI.pmap_inj (pq, u) hpu (q, u) hq rfl
      rw [this]
      exact hqs
  rcases hsuf with ⟨w, hw⟩
  exact ⟨pq ++ [c], halt, by simp, w, by rw [← List.append_assoc, hw]⟩

/-- The represented-prefix invariant holds for the active set reached
after any number of symbols of an upper-case-fixed sequence. -/
theorem nfaCurAt_suffix (alts : List (List Char)) (su : List Char)
    (hup : ∀ c ∈ su, up c = c) (i : Nat) :
    ∀ v ∈ nfaCurAt (buildNFA alts) su i,
      ∃ p, (p, v) ∈ (buildNFA alts).pmap ∧ p <:+ su.take i := by
  have hI := buildNFA_inv alts
  have key : ∀ (l : List Char) (t : List Char) (cur : List Nat),
      (∀ c ∈ l, up c = c) →
      (∀ v ∈ cur, ∃ p, (p, v) ∈ (buildNFA alts).pmap ∧ p <:+ t) →
      ∀ v ∈ l.foldl (fun cur c => (nfaStepSet (buildNFA alts) cur c).1) cur,
        ∃ p, (p, v) ∈ (buildNFA alts).pmap ∧ p <:+ (t ++ l) := by
    intro l
    induction l with
    | nil =>
      intro t cur _ hcur v hv
      rcases hcur v hv with ⟨p, hp, hs⟩
      exact ⟨p, hp, by simpa using hs⟩
    | cons c l' ih =>
      intro t cur hl hcur v hv
      have step := nfaStep_suffix alts t cur c (hl c (by simp)) hcur
      have := ih (t ++ [c]) ((nfaStepSet (buildNFA alts) cur c).1)
        (fun x hx => hl x (by simp [hx])) step v (by simpa using hv)
      rcases this with ⟨p, hp, hs⟩
      exact ⟨p, hp, by simpa using hs⟩
  have h0 : ∀ v ∈ ([0] : List Nat),
      ∃ p, (p, v) ∈ (buildNFA alts).pmap ∧ p <:+ ([] : List Char) := by
    intro v hv
    simp only [List.mem_singleton] at hv
    rw [hv]
    exact ⟨[], hI.pmap_nil, [], by simp⟩
  intro v hv
  have := key (su.take i) [] [0] (fun c hc => hup c (List.mem_of_mem_take hc))
    h0 v hv
  rcases this with ⟨p, hp, hs⟩
  exact ⟨p, hp, by simpa using hs⟩

end GA

namespace GA

/-- Characterization of the best-candidate fold used by the alternatives
recorder: the result is the start value or a valid list element, it
dominates the start value, and it dominates every valid element. -/
theorem foldl_pickMax_spec (P : Nat → Prop) [DecidablePred P] :
    ∀ (l : List Nat) (L0 : Nat),
      ((l.foldl (fun L Lc => if L < Lc ∧ P Lc then Lc else L) L0 = L0 ∨
        (P (l.foldl (fun L Lc => if L < Lc ∧ P Lc then Lc else L) L0) ∧
          (l.foldl (fun L Lc => if L < Lc ∧ P Lc then Lc else L) L0) ∈ l)) ∧
       L0 ≤ l.foldl (fun L Lc => if L < Lc ∧ P Lc then Lc else L) L0 ∧
       ∀ x ∈ l, P x → x ≤ l.foldl (fun L Lc => if L < Lc ∧ P Lc then Lc else L) L0) := by
  intro l
  induction l with
  | nil => intro L0; exact ⟨Or.inl rfl, le_refl _, by simp⟩
  | cons y l' ih =>
    intro L0
    simp only [List.foldl_cons]
    rcases ih (if L0 < y ∧ P y then y else L0) with ⟨hor, hle, hall⟩
    refine ⟨?_, ?_, ?_⟩
    · rcases hor with h | ⟨hP, hmem⟩
      · rw [h]
        split
        · next hcond => exact Or.inr ⟨hcond.2, by simp⟩
        · exact Or.inl rfl
      · exact Or.inr ⟨hP, by simp [hmem]⟩
    · refine le_trans ?_ hle
      split
      · next hcond => exact le_of_lt hcond.1
      · exact le_refl _
    · intro x hx hPx
      rcases List.mem_cons.mp hx with rfl | hx'
      · refine le_trans ?_ hle
        split
        · next hcond => exact le_refl _
        · next hcond =>
          rw [not_and] at hcond
          rcases Nat.lt_or_ge L0 x with h | h
          · exact absurd hPx (hcond h)
          · exact h
      · exact hall x hx' hPx

/-- Characterization of a `max` fold: the result is the start value or a
list element, and it dominates the start value and every element. -/
theorem foldl_max_spec :
    ∀ (l : List Nat) (L0 : Nat),
      ((l.foldl max L0 = L0 ∨ l.foldl max L0 ∈ l) ∧
       L0 ≤ l.foldl max L0 ∧ ∀ x ∈ l, x ≤ l.foldl max L0) := by
  intro l
  induction l with
  | nil => intro L0; exact ⟨Or.inl rfl, le_refl _, by simp⟩
  | cons y l' ih =>
    intro L0
    simp only [List.foldl_cons]
    rcases ih (max L0 y) with ⟨hor, hle, hall⟩
    refine ⟨?_, le_trans (le_max_left _ _) hle, ?_⟩
    · rcases hor with h | h
      · rw [h]
        rcases max_choice L0 y with hm | hm
        · rw [hm]
          exact Or.inl rfl
        · rw [hm]
          exact Or.inr (by simp)
      · exact Or.inr (by simp [h])
    · intro x hx
      rcases List.mem_cons.mp hx with rfl | hx'
      · exact le_trans (le_max_right _ _) hle
      · exact hall x hx'

/-- A slice equals the matching piece of a `take`. -/
theorem slice_eq_drop_take (su : List Char) (j L : Nat) (hj : j ≤ su.length) :
    slice su j L = (su.take (j + L)).drop j := by
  have h1 : (su.take (j + L)).drop j = (su.take j).drop j ++ (su.drop j).take L := by
    rw [List.take_add]
    exact List.drop_append_of_le_length (by rw [List.length_take]; omega)
  have h2 : (su.take j).drop j = [] :=
    List.drop_eq_nil_of_le (by rw [List.length_take]; omega)
  unfold slice
  rw [h1, h2, List.nil_append]

/-- The recorded length computed by the fold in `find_all_matches` equals
the specification-side longest-suffix-alternative length. -/
theorem recLen_eq_specLen (alts : List (List Char)) (su : List Char) (i : Nat)
    (hi : i < su.length) :
    nfaRecLen alts (nfaAltLens alts) su i = nfaSpecLen alts su i := by
  have hRdef : nfaRecLen alts (nfaAltLens alts) su i =
      (nfaAltLens alts).foldl
        (fun L Lc => if L < Lc ∧ (Lc ≤ i + 1 ∧ slice su (i + 1 - Lc) Lc ∈ alts)
          then Lc else L) 0 := rfl
  have hSdef : nfaSpecLen alts su i =
      ((alts.filter (fun a => a ≠ [] ∧ a <:+ su.take (i + 1))).map
        List.length).foldl max 0 := rfl
  have hrec := foldl_pickMax_spec
    (fun Lc => Lc ≤ i + 1 ∧ slice su (i + 1 - Lc) Lc ∈ alts) (nfaAltLens alts) 0
  have hspec := foldl_max_spec
    ((alts.filter (fun a => a ≠ [] ∧ a <:+ su.take (i + 1))).map List.length) 0
  rw [← hRdef] at hrec
  rw [← hSdef] at hspec
  apply le_antisymm
  · rcases hrec.1 with h0 | ⟨⟨hle, hmem⟩, hin⟩
    · rw [h0]
      exact Nat.zero_le _
    · rcases List.mem_dedup.mp hin with hin2
      rcases List.mem_map.mp hin2 with ⟨a, hfa, hlen⟩
      rcases List.mem_filter.mp hfa with ⟨_, hane⟩
      have hane' : a ≠ [] := by simpa using hane
      have hRpos : 0 < nfaRecLen alts (nfaAltLens alts) su i := by
        rw [← hlen]
        exact List.length_pos.mpr hane'
      have hslicelen : (slice su (i + 1 - nfaRecLen alts (nfaAltLens alts) su i)
          (nfaRecLen alts (nfaAltLens alts) su i)).length =
          nfaRecLen alts (nfaAltLens alts) su i := by
        unfold slice
        rw [List.length_take, List.length_drop]
        omega
      have hsuffix : slice su (i + 1 - nfaRecLen alts (nfaAltLens alts) su i)
          (nfaRecLen alts (nfaAltLens alts) su i) <:+ su.take (i + 1) := by
        rw [slice_eq_drop_take su _ _ (by omega)]
        rw [show i + 1 - nfaRecLen alts (nfaAltLens alts) su i +
          nfaRecLen alts (nfaAltLens alts) su i = i + 1 by omega]
        exact ⟨(su.take (i + 1)).take
          (i + 1 - nfaRecLen alts (nfaAltLens alts) su i), by simp⟩
      have hfmem : slice su (i + 1 - nfaRecLen alts (nfaAltLens alts) su i)
          (nfaRecLen alts (nfaAltLens alts) su i) ∈
          alts.filter (fun a => a ≠ [] ∧ a <:+ su.take (i + 1)) := by
        rw [List.mem_filter]
        refine ⟨hmem, ?_⟩
        simp only [decide_eq_true_eq]
        constructor
        · rw [← List.length_pos, hslicelen]
          exact hRpos
        · exact hsuffix
      refine hspec.2.2 (nfaRecLen alts (nfaAltLens alts) su i) ?_
      rw [show nfaRecLen alts (nfaAltLens alts) su i =
        (slice su (i + 1 - nfaRecLen alts (nfaAltLens alts) su i)
          (nfaRecLen alts (nfaAltLens alts) su i)).length from hslicelen.symm]
      exact List.mem_map.mpr ⟨_, hfmem, rfl⟩
  · rcases hspec.1 with h0 | hin
    · rw [h0]
      exact Nat.zero_le _
    · rcases List.mem_map.mp hin with ⟨a, hfa, hlen⟩
      rcases List.mem_filter.mp hfa with ⟨hamem, hcond⟩
      simp only [decide_eq_true_eq] at hcond
      rcases hcond with ⟨hane, hasuf⟩
      have hlenle : a.length ≤ i + 1 := by
        have := List.IsSuffix.length_le hasuf
        rw [List.length_take] at this
        omega
      have hsliceeq : slice su (i + 1 - a.length) a.length = a := by
        rw [slice_eq_drop_take su (i + 1 - a.length) a.length (by omega)]
        rw [show i + 1 - a.length + a.length = i + 1 by omega]
        rcases hasuf with ⟨w, hw⟩
        have hwlen : w.length = i + 1 - a.length := by
          have := congrArg List.length hw
          rw [List.length_append, List.length_take] at this
          omega
        rw [← hw, ← hwlen]
        exact List.drop_left w a
      have hPmem : a.length ∈ nfaAltLens alts := by
        unfold nfaAltLens
        rw [List.mem_dedup]
        refine List.mem_map.mpr ⟨a, List.mem_filter.mpr ⟨hamem, ?_⟩, rfl⟩
        simpa using hane
      have := hrec.2.2 a.length hPmem ⟨hlenle, by rw [hsliceeq]; exact hamem⟩
      rw [← hlen]
      exact this

/-- A flagged match forces a positive specification-side length. -/
theorem matched_specLen_pos (alts : List (List Char)) (su : List Char)
    (hup : ∀ c ∈ su, up c = c) (i : Nat) (hi : i < su.length)
    (hm : nfaMatchedAt (buildNFA alts) su i = true) :
    0 < nfaSpecLen alts su i := by
  have hc : up (su.getD i ' ') = su.getD i ' ' := hup _ (getD_mem hi ' ')
  have hmm := nfaStep_matched alts (su.take i) (nfaCurAt (buildNFA alts) su i)
    (su.getD i ' ') hc (nfaCurAt_suffix alts su hup i) hm
  rcases hmm with ⟨a, hamem, hane, hasuf⟩
  have htake : su.take i ++ [su.getD i ' '] = su.take (i + 1) :=
    (take_succ_getD su i hi ' ').symm
  rw [htake] at hasuf
  have hfmem : a ∈ alts.filter (fun a => a ≠ [] ∧ a <:+ su.take (i + 1)) :=
    List.mem_filter.mpr ⟨hamem, by simp [hane, hasuf]⟩
  have hspec := foldl_max_spec
    ((alts.filter (fun a => a ≠ [] ∧ a <:+ su.take (i + 1))).map List.length) 0
  have hval := hspec.2.2 a.length (List.mem_map.mpr ⟨a, hfmem, rfl⟩)
  have hpos : 0 < a.length := List.length_pos.mpr hane
  have hSdef : nfaSpecLen alts su i =
      ((alts.filter (fun a => a ≠ [] ∧ a <:+ su.take (i + 1))).map
        List.length).foldl max 0 := rfl
  rw [hSdef]
  omega

end GA

namespace GA

/-- Reading at index `k` when the drop at `k` is known. -/
theorem getD_of_drop_cons {l : List Char} {k : Nat} {c : Char} {r : List Char}
    (h : l.drop k = c :: r) (d : Char) : l.getD k d = c := by
  induction l generalizing k with
  | nil => simp at h
  | cons a as ih =>
    cases k with
    | zero =>
      simp only [List.drop_zero] at h
      rw [List.cons.injEq] at h
      simp [h.1]
    | succ m =>
      simp only [List.drop_succ_cons] at h
      simpa using ih h

/-- Unrolling the active-set trace by one position. -/
theorem nfaCurAt_succ (g : NFAB) (su : List Char) (i : Nat)
    (h : i < su.length) :
    nfaCurAt g su (i + 1) =
      (nfaStepSet g (nfaCurAt g su i) (su.getD i ' ')).1 := by
  unfold nfaCurAt
  rw [take_succ_getD su i h ' ', List.foldl_append]
  simp

/-- Membership characterization of the alternatives scanning loop: run
from position `k`, it records exactly the pairs `(i - L + 1, i)` over
the flagged positions `i ≥ k` with non-zero recorded length `L`. -/
theorem nfaGo_mem (g : NFAB) (alts : List (List Char)) (altLens : List Nat)
    (su : List Char) :
    ∀ (rest : List Char) (k : Nat), k ≤ su.length → su.drop k = rest →
      ∀ ab : Int × Int,
        (ab ∈ nfaGo g alts altLens su (nfaCurAt g su k) k rest ↔
          ∃ i : Nat, k ≤ i ∧ i < su.length ∧ nfaMatchedAt g su i = true ∧
            nfaRecLen alts altLens su i ≠ 0 ∧
            ab = ((i : Int) - nfaRecLen alts altLens su i + 1, (i : Int))) := by
  intro rest
  induction rest with
  | nil =>
    intro k hk hdrop ab
    have hkeq : k = su.length := by
      have := List.drop_eq_nil_iff_le.mp hdrop
      omega
    simp only [nfaGo, List.not_mem_nil, false_iff]
    rintro ⟨i, h1, h2, _⟩
    omega
  | cons c rest' ih =>
    intro k hk hdrop ab
    have hklt : k < su.length := by
      by_contra hge
      rw [List.drop_eq_nil_of_le (by omega)] at hdrop
      simp at hdrop
    have hgd : su.getD k ' ' = c := getD_of_drop_cons hdrop ' '
    have hdrop' : su.drop (k + 1) = rest' := by
      have : su.drop (k + 1) = (su.drop k).drop 1 := by
        rw [List.drop_drop]
      rw [this, hdrop]
      simp
    have hstep : (nfaStepSet g (nfaCurAt g su k) c).1 = nfaCurAt g su (k + 1) := by
      rw [nfaCurAt_succ g su k hklt, hgd]
    have hmat : (nfaStepSet g (nfaCurAt g su k) c).2 = nfaMatchedAt g su k := by
      unfold nfaMatchedAt
      rw [hgd]
    have hgo : nfaGo g alts altLens su (nfaCurAt g su k) k (c :: rest') =
        (if (nfaStepSet g (nfaCurAt g su k) c).2 ∧ nfaRecLen alts altLens su k ≠ 0
         then [((k : Int) - nfaRecLen alts altLens su k + 1, (k : Int))] else []) ++
        nfaGo g alts altLens su (nfaStepSet g (nfaCurAt g su k) c).1 (k + 1) rest' := rfl
    rw [hgo, hstep]
    rw [List.mem_append]
    rw [ih (k + 1) (by omega) hdrop' ab]
    constructor
    · rintro (hemit | ⟨i, h1, h2, h3, h4, h5⟩)
      · split at hemit
        case isTrue hcond =>
          simp only [List.mem_singleton] at hemit
          refine ⟨k, le_refl _, hklt, ?_, hcond.2, hemit⟩
          rw [← hmat]
          exact hcond.1
        case isFalse => simp at hemit
      · exact ⟨i, by omega, h2, h3, h4, h5⟩
    · rintro ⟨i, h1, h2, h3, h4, h5⟩
      rcases Nat.eq_or_lt_of_le h1 with rfl | hlt
      · left
        rw [if_pos ⟨by rw [hmat]; exact h3, h4⟩]
        simp [h5]
      · right
        exact ⟨i, by omega, h2, h3, h4, h5⟩

/-- C4: whenever the alternatives engine's `find_all_matches` flags a
match at position `i`, it records exactly the interval `[i - L + 1, i]`
where `L` is the length of the longest alternative equal to the suffix
of length `L` ending at `i` (such an alternative always exists at a
flagged position); conversely every recorded interval arises this way;
and alternatives `["AT","CAT"]` on sequence "CAT" report exactly the
single length-3 match `[0, 2]`. -/
theorem c4_alternatives_longest_suffix (pat s : List Char)
    (hnd : (nfaAlternatives pat).Nodup) :
    (∀ ab ∈ ((NFA.mk' pat).find_all_matches s).2,
      ∃ i : Nat, i < (s.map up).length ∧
        nfaMatchedAt (buildNFA (nfaAlternatives pat)) (s.map up) i = true ∧
        0 < nfaSpecLen (nfaAlternatives pat) (s.map up) i ∧
        ab = ((i : Int) - nfaSpecLen (nfaAlternatives pat) (s.map up) i + 1,
          (i : Int))) ∧
    (∀ i : Nat, i < (s.map up).length →
      nfaMatchedAt (buildNFA (nfaAlternatives pat)) (s.map up) i = true →
      ((i : Int) - nfaSpecLen (nfaAlternatives pat) (s.map up) i + 1, (i : Int)) ∈
        ((NFA.mk' pat).find_all_matches s).2) ∧
    ((NFA.mk' ("AT|CAT".toList)).find_all_matches ("CAT".toList)).2 =
      [(0, 2)] := by
  have hup : ∀ c ∈ s.map up, up c = c := by
    intro c hc
    rcases List.mem_map.mp hc with ⟨c0, _, hc0⟩
    rw [← hc0]
    exact up_idem c0
  have hfam : ((NFA.mk' pat).find_all_matches s).2 =
      nfaGo (buildNFA (nfaAlternatives pat)) (nfaAlternatives pat)
        (nfaAltLens (nfaAlternatives pat)) (s.map up)
        (nfaCurAt (buildNFA (nfaAlternatives pat)) (s.map up) 0) 0
        (s.map up) := rfl
  have hmem := nfaGo_mem (buildNFA (nfaAlternatives pat)) (nfaAlternatives pat)
    (nfaAltLens (nfaAlternatives pat)) (s.map up) (s.map up) 0
    (by omega) (by simp)
  refine ⟨?_, ?_, by decide⟩
  · intro ab hab
    rw [hfam] at hab
    rcases (hmem ab).mp hab with ⟨i, _, h2, h3, h4, h5⟩
    rw [recLen_eq_specLen _ _ _ h2] at h4 h5
    refine ⟨i, h2, h3, by omega, h5⟩
  · intro i hi hm
    have hpos := matched_specLen_pos (nfaAlternatives pat) (s.map up) hup i hi hm
    rw [hfam]
    apply (hmem _).mpr
    refine ⟨i, by omega, hi, hm, ?_, ?_⟩
    · rw [recLen_eq_specLen _ _ _ hi]
      omega
    · rw [recLen_eq_specLen _ _ _ hi]

/-- C4 witness: the theorem applied to the pattern "AT|CAT" (distinct
alternatives) on sequence "CAT", exposing its concrete-result conjunct. -/
theorem c4_alternatives_longest_suffix_witness :
    ((NFA.mk' ("AT|CAT".toList)).find_all_matches ("CAT".toList)).2 =
      [(0, 2)] :=
  (c4_alternatives_longest_suffix ("AT|CAT".toList) ("CAT".toList)
    (by decide)).2.2

end GA

namespace GA

/-- Unfolding of the expand loop at a positive left pointer. -/
theorem expandGo_succ (s : List Char) (lp r : Nat) :
    expandGo s (lp + 1) r =
      if r < s.length ∧ comp (s.getD lp ' ') = s.getD r ' ' then
        expandGo s lp (r + 1)
      else (lp + 1, r) := rfl

/-- Forward invariant of the expand loop: the pointers move outward in
lock step, every consumed index pair is complement-matched and in
bounds, and the loop stops only when it can no longer expand. -/
theorem expandGo_spec (s : List Char) :
    ∀ (lp r : Nat),
      (expandGo s lp r).1 ≤ lp ∧ r ≤ (expandGo s lp r).2 ∧
      lp - (expandGo s lp r).1 = (expandGo s lp r).2 - r ∧
      (∀ t, t < lp - (expandGo s lp r).1 →
        r + t < s.length ∧
        comp (s.getD (lp - 1 - t) ' ') = s.getD (r + t) ' ') ∧
      ¬(0 < (expandGo s lp r).1 ∧ (expandGo s lp r).2 < s.length ∧
        comp (s.getD ((expandGo s lp r).1 - 1) ' ') =
          s.getD (expandGo s lp r).2 ' ') := by
  intro lp
  induction lp with
  | zero =>
    intro r
    have h0 : expandGo s 0 r = (0, r) := rfl
    rw [h0]
    refine ⟨le_refl _, le_refl _, by omega, by omega, ?_⟩
    rintro ⟨h, _⟩
    simp at h
  | succ k ih =>
    intro r
    rw [expandGo_succ]
    by_cases hcond : r < s.length ∧ comp (s.getD k ' ') = s.getD r ' '
    · rw [if_pos hcond]
      rcases ih (r + 1) with ⟨h1, h2, h3, h4, h5⟩
      refine ⟨by omega, by omega, by omega, ?_, h5⟩
      intro t ht
      cases t with
      | zero =>
        refine ⟨by omega, ?_⟩
        simpa using hcond.2
      | succ t' =>
        have ht' : t' < k - (expandGo s k (r + 1)).1 := by omega
        rcases h4 t' ht' with ⟨hb, hcomp⟩
        refine ⟨by omega, ?_⟩
        rw [show k + 1 - 1 - (t' + 1) = k - 1 - t' by omega,
          show r + (t' + 1) = r + 1 + t' by omega]
        exact hcomp
    · rw [if_neg hcond]
      refine ⟨le_refl _, le_refl _, by omega, by omega, ?_⟩
      rintro ⟨_, hb, hcomp⟩
      exact hcond ⟨hb, by simpa using hcomp⟩

/-- Determinism of the expand loop: if the first `m` index pairs match
within bounds and the loop cannot take an `(m+1)`-st step, it stops
exactly after `m` steps. -/
theorem expandGo_of_pairs (s : List Char) :
    ∀ (m lp r : Nat), m ≤ lp →
      (∀ t, t < m → r + t < s.length ∧
        comp (s.getD (lp - 1 - t) ' ') = s.getD (r + t) ' ') →
      ¬(0 < lp - m ∧ r + m < s.length ∧
        comp (s.getD (lp - m - 1) ' ') = s.getD (r + m) ' ') →
      expandGo s lp r = (lp - m, r + m) := by
  intro m
  induction m with
  | zero =>
    intro lp r _ _ hstop
    cases lp with
    | zero => simp [expandGo]
    | succ k =>
      rw [expandGo_succ]
      rw [if_neg]
      · simp
      · rintro ⟨hb, hcomp⟩
        exact hstop ⟨by omega, by simpa using hb, by simpa using hcomp⟩
  | succ m' ih =>
    intro lp r hm hpairs hstop
    cases lp with
    | zero => omega
    | succ k =>
      have h0 := hpairs 0 (by omega)
      rw [expandGo_succ]
      rw [if_pos ⟨h0.1, by simpa using h0.2⟩]
      have := ih k (r + 1) (by omega)
        (fun t ht => by
          rcases hpairs (t + 1) (by omega) with ⟨hb, hcomp⟩
          refine ⟨by omega, ?_⟩
          rw [show k - 1 - t = k + 1 - 1 - (t + 1) by omega,
            show r + 1 + t = r + (t + 1) by omega]
          exact hcomp)
        (by
          intro hc
          refine hstop ⟨by omega, by
            rw [show r + (m' + 1) = r + 1 + m' by omega]
            exact hc.2.1, ?_⟩
          rw [show k + 1 - (m' + 1) - 1 = k - m' - 1 by omega,
            show r + (m' + 1) = r + 1 + m' by omega]
          exact hc.2.2)
      rw [this]
      rw [Prod.mk.injEq]
      constructor
      · omega
      · omega

/-- For a right symbol that is not the sentinel, the code's complement
test agrees with the claim's complement pairing. -/
theorem comp_eq_iff_specPair (x y : Char) (hy : y ≠ '?') :
    comp x = y ↔ specPair x y := by
  unfold comp specPair
  split_ifs with h1 h2 h3 h4
  · subst h1
    simp [eq_comm]
  · subst h2
    simp [eq_comm]
  · subst h3
    simp [eq_comm]
  · subst h4
    simp [eq_comm]
  · simp [h1, h2, h3, h4, eq_comm, hy]

end GA

namespace GA

/-- The pair order is transitive. -/
theorem ltPair_trans {a b c : Nat × Nat} (h1 : ltPair a b) (h2 : ltPair b c) :
    ltPair a c := by
  rcases a with ⟨a1, a2⟩
  rcases b with ⟨b1, b2⟩
  rcases c with ⟨c1, c2⟩
  unfold ltPair at *
  omega

/-- The pair order is irreflexive. -/
theorem ltPair_ne {a b : Nat × Nat} (h : ltPair a b) : a ≠ b := by
  rintro rfl
  rcases a with ⟨a1, a2⟩
  unfold ltPair at h
  omega

/-- The pair order is total on distinct pairs. -/
theorem ltPair_total {a b : Nat × Nat} (hne : ¬a = b) :
    ltPair a b ∨ ltPair b a := by
  rcases a with ⟨a1, a2⟩
  rcases b with ⟨b1, b2⟩
  simp only [Prod.mk.injEq, not_and] at hne
  unfold ltPair
  simp only
  by_cases h : a1 = b1
  · have := hne h
    omega
  · omega

/-- Membership through the de-duplicating insert. -/
theorem mem_insSD (x y : Nat × Nat) (l : List (Nat × Nat)) :
    y ∈ insSD x l ↔ y = x ∨ y ∈ l := by
  induction l with
  | nil => simp [insSD]
  | cons z zs ih =>
    unfold insSD
    split
    · next hxz =>
      subst hxz
      simp only [List.mem_cons]
      tauto
    · split
      · simp only [List.mem_cons]
      · simp only [List.mem_cons, ih]
        tauto

/-- The de-duplicating insert preserves strict sortedness. -/
theorem pairwise_insSD (x : Nat × Nat) (l : List (Nat × Nat))
    (h : List.Pairwise ltPair l) : List.Pairwise ltPair (insSD x l) := by
  induction l with
  | nil => simp [insSD]
  | cons z zs ih =>
    rcases List.pairwise_cons.mp h with ⟨hz, hzs⟩
    unfold insSD
    split
    · next hxz => exact h
    · split
      · next hxz hlt =>
        rw [List.pairwise_cons]
        refine ⟨?_, h⟩
        intro b hb
        rcases List.mem_cons.mp hb with rfl | hb'
        · exact hlt
        · exact ltPair_trans hlt (hz b hb')
      · next hxz hnlt =>
        rw [List.pairwise_cons]
        refine ⟨?_, ih hzs⟩
        intro b hb
        rcases (mem_insSD x b zs).mp hb with rfl | hb'
        · rcases ltPair_total hxz with h' | h'
          · exact absurd h' hnlt
          · exact h'
        · exact hz b hb'

/-- `sorted(set(...))` keeps exactly the original elements. -/
theorem mem_sortedDedup (l : List (Nat × Nat)) (x : Nat × Nat) :
    x ∈ sortedDedup l ↔ x ∈ l := by
  induction l with
  | nil => simp [sortedDedup]
  | cons y ys ih =>
    have heq : sortedDedup (y :: ys) = insSD y (sortedDedup ys) := rfl
    rw [heq, mem_insSD, ih]
    simp

/-- `sorted(set(...))` is strictly ascending. -/
theorem pairwise_sortedDedup (l : List (Nat × Nat)) :
    List.Pairwise ltPair (sortedDedup l) := by
  induction l with
  | nil => simp [sortedDedup]
  | cons y ys ih =>
    have heq : sortedDedup (y :: ys) = insSD y (sortedDedup ys) := rfl
    rw [heq]
    exact pairwise_insSD y _ ih

/-- `sorted(set(...))` contains no duplicates. -/
theorem nodup_sortedDedup (l : List (Nat × Nat)) : (sortedDedup l).Nodup :=
  (pairwise_sortedDedup l).imp (fun h => ltPair_ne h)

end GA

namespace GA

/-- C5 amended: for sequences that do not contain the sentinel character
`?`, the complement-palindrome engine's batch search returns, with no
duplicates and in ascending order, exactly the maximal even-centered
complement-palindromic spans of length at least the configured minimum;
"AATT" yields exactly `[0,3]` and "AAAA" yields no matches. -/
theorem c5_palindrome_amended :
    (∀ (m : Nat) (s : List Char), '?' ∉ s.map up →
      ∀ a b : Nat, ((a, b) ∈ ((PDA.mk' m).find_all_matchesM s).2 ↔
        ∃ i : Nat, ClaimSpan (s.map up) i a b ∧
          (PDA.mk' m).min_len ≤ b + 1 - a)) ∧
    (∀ (m : Nat) (s : List Char),
      List.Pairwise ltPair ((PDA.mk' m).find_all_matchesM s).2 ∧
      ((PDA.mk' m).find_all_matchesM s).2.Nodup) ∧
    (((PDA.mk' 4).find_all_matchesM ("AATT".toList)).2 = [(0, 3)]) ∧
    (((PDA.mk' 4).find_all_matchesM ("AAAA".toList)).2 = []) := by
  have hfam : ∀ (m : Nat) (s : List Char),
      ((PDA.mk' m).find_all_matchesM s).2 = pdaSearch (max 2 m) s :=
    fun _ _ => rfl
  refine ⟨?_, ?_, by decide, by decide⟩
  swap
  · intro m s
    rw [hfam]
    unfold pdaSearch
    exact ⟨pairwise_sortedDedup _, nodup_sortedDedup _⟩
  intro m s hq a b
  have hml : (PDA.mk' m).min_len = max 2 m := rfl
  rw [hfam, hml]
  have hvalid : ∀ j, j < (s.map up).length → (s.map up).getD j ' ' ≠ '?' := by
    intro j hj heq
    exact hq (heq ▸ getD_mem hj ' ')
  constructor
  · intro hmem
    unfold pdaSearch at hmem
    rw [mem_sortedDedup] at hmem
    rcases List.mem_flatMap.mp hmem with ⟨i, hiR, hin⟩
    rw [List.mem_range] at hiR
    obtain ⟨h1, h2, h3, h4, h5⟩ := expandGo_spec (s.map up) (i + 1) (i + 1)
    split at hin
    case isFalse => simp at hin
    case isTrue hlen =>
      simp only [List.mem_singleton, Prod.mk.injEq] at hin
      obtain ⟨ha, hb⟩ := hin
      rcases hE : expandGo (s.map up) (i + 1) (i + 1) with ⟨e1, e2⟩
      rw [hE] at h1 h2 h3 h4 h5 hlen ha hb
      simp only at h1 h2 h3 h4 h5 hlen ha hb
      have hk1 : 1 ≤ i + 1 - e1 := by
        have h2m : 2 ≤ max 2 m := le_max_left 2 m
        generalize max 2 m = X at hlen h2m
        omega
      have he2n : e2 ≤ (s.map up).length := by
        have := (h4 (i + 1 - e1 - 1) (by omega)).1
        omega
      refine ⟨i, ⟨by omega, by omega, by omega, ?_, ?_⟩, ?_⟩
      · intro t ht
        have hlt : t < i + 1 - e1 := by omega
        obtain ⟨hbnd, hcomp⟩ := h4 t hlt
        rw [show i + 1 - 1 - t = i - t by omega] at hcomp
        have hy : (s.map up).getD (i + 1 + t) ' ' ≠ '?' := hvalid _ hbnd
        exact (comp_eq_iff_specPair _ _ hy).mp hcomp
      · by_cases ha0 : a = 0
        · exact Or.inl ha0
        by_cases hbn : b + 1 = (s.map up).length
        · exact Or.inr (Or.inl hbn)
        · refine Or.inr (Or.inr ?_)
          intro hsp
          apply h5
          refine ⟨by omega, by omega, ?_⟩
          have hy : (s.map up).getD e2 ' ' ≠ '?' := hvalid _ (by omega)
          rw [comp_eq_iff_specPair _ _ hy]
          rw [show e1 = a by omega, show e2 = b + 1 by omega]
          exact hsp
      · generalize max 2 m = X at hlen ⊢
        omega
  · rintro ⟨i, ⟨hai, hsum, hbn, hpairs, hmax⟩, hminl⟩
    unfold pdaSearch
    rw [mem_sortedDedup]
    apply List.mem_flatMap.mpr
    have hbge : i + 1 ≤ b := by omega
    refine ⟨i, by rw [List.mem_range]; omega, ?_⟩
    have hexp : expandGo (s.map up) (i + 1) (i + 1) =
        ((i + 1) - (i + 1 - a), (i + 1) + (i + 1 - a)) := by
      apply expandGo_of_pairs (s.map up) (i + 1 - a) (i + 1) (i + 1) (by omega)
      · intro t ht
        refine ⟨by omega, ?_⟩
        rw [show i + 1 - 1 - t = i - t by omega]
        have hy : (s.map up).getD (i + 1 + t) ' ' ≠ '?' :=
          hvalid _ (by omega)
        rw [comp_eq_iff_specPair _ _ hy]
        exact hpairs t (by omega)
      · rintro ⟨hpos, hbnd, hcomp⟩
        rw [show i + 1 - (i + 1 - a) = a by omega] at hpos
        rw [show i + 1 + (i + 1 - a) = b + 1 by omega] at hbnd
        rw [show i + 1 - (i + 1 - a) - 1 = a - 1 by omega,
          show i + 1 + (i + 1 - a) = b + 1 by omega] at hcomp
        rcases hmax with h0 | hn | hns
        · omega
        · omega
        · apply hns
          have hy : (s.map up).getD (b + 1) ' ' ≠ '?' := hvalid _ hbnd
          rw [← comp_eq_iff_specPair _ _ hy]
          exact hcomp
    simp only [hexp]
    rw [show i + 1 - (i + 1 - a) = a by omega,
      show i + 1 + (i + 1 - a) = b + 1 by omega]
    rw [if_pos hminl]
    simp

/-- C5 counterexample: on a sequence containing the sentinel character
`?`, the code records a span whose expansion relied on the sentinel
matching a literal `?`, although under the claim's pairing (anything
outside `{A,T,G,C}` never matches) no center admits the span `[0,3]`. -/
theorem c5_counterexample_sentinel :
    ((0, 3) ∈ ((PDA.mk' 4).find_all_matchesM ("AX?T".toList)).2) ∧
    ¬ ClaimSpan ("AX?T".toList.map up) 0 0 3 ∧
    ¬ ClaimSpan ("AX?T".toList.map up) 1 0 3 ∧
    ¬ ClaimSpan ("AX?T".toList.map up) 2 0 3 ∧
    '?' ∈ ("AX?T".toList.map up) := by
  decide

/-- C5 witness: the amended characterization applied to min-length 4 and
"AATT", producing the span `[0,3]` from its center at `(1, 2)`. -/
theorem c5_palindrome_amended_witness :
    (0, 3) ∈ ((PDA.mk' 4).find_all_matchesM ("AATT".toList)).2 :=
  (c5_palindrome_amended.1 4 ("AATT".toList) (by decide) 0 3).mpr
    ⟨1, by decide, by decide⟩

end GA
